import Mathlib

/-!
# LinBox fast-inverse blackboxes (`linbox/blackbox/fibb.h`)

A shallow embedding of the `BB` / `FIBB` interfaces and of the composite
`FIBBProduct`, followed by theorems about the composite.

* An abstract class with pure virtual members becomes a record of functions (`FIBB`).
* A matrix out-parameter (`Matrix& Y`) is passed in, because the callee sees the shape
  the caller gave it, and the updated matrix is the result.
* A scalar out-parameter (`size_t& r`, `Element& d`) is only written by the callee, so it
  is modelled as the result alone.
* The random members thread an explicit generator state of type `G`.
-/

namespace LinBox

/-- The tags of `enum BBType`. -/
inductive BBType where
  | diagonal
  | permutation
  | triangular
  | product
  | lqup
  | pluq
  | other
  deriving DecidableEq

/-- Modelled from the spec: `DenseMatrix<Field>` of `linbox/matrix/dense-matrix.h`, which is
not part of the sources at hand: a dense matrix value that carries its own run-time row and
column counts. -/
structure DenseMatrix (K : Type) where
  /-- Number of rows. -/
  rowdim : Nat
  /-- Number of columns. -/
  coldim : Nat
  /-- The entries. -/
  rep : Matrix (Fin rowdim) (Fin coldim) K

namespace DenseMatrix

variable {K : Type}

/-- A statically shaped matrix seen as a dense matrix value. -/
def ofMatrix {m n : Nat} (M : Matrix (Fin m) (Fin n) K) : DenseMatrix K :=
  ⟨m, n, M⟩

/-- Entry access by natural-number indices, zero outside the shape. -/
def get [Zero K] (M : DenseMatrix K) (i j : Nat) : K :=
  if h : i < M.rowdim ∧ j < M.coldim then M.rep ⟨i, h.1⟩ ⟨j, h.2⟩ else 0

/-- A dense matrix of a given shape filled from a function of the indices. -/
def ofFn (m n : Nat) (f : Nat → Nat → K) : DenseMatrix K :=
  ⟨m, n, fun i j => f i.val j.val⟩

/-- Modelled from the spec: the constructor `Matrix(field, m, n)`, a fresh `m × n` matrix
(zero filled). -/
def alloc [Zero K] (m n : Nat) : DenseMatrix K :=
  ⟨m, n, 0⟩

/-- Modelled from the spec: `resize(m, n)`: the shape becomes `m × n`; the row-major
storage is kept and extended by zeros. -/
def resize [Zero K] (M : DenseMatrix K) (m n : Nat) : DenseMatrix K :=
  ofFn m n fun i j =>
    if (i * n + j) < M.rowdim * M.coldim then
      M.get ((i * n + j) / M.coldim) ((i * n + j) % M.coldim)
    else 0

/-- Modelled from the spec: `BlasMatrixDomain::subin(N, X)`, the in-place subtraction
`N := N - X`, the result keeping the shape of `N`. -/
def subin [Zero K] [Sub K] (N X : DenseMatrix K) : DenseMatrix K :=
  ⟨N.rowdim, N.coldim, fun i j => N.rep i j - X.get i.val j.val⟩

end DenseMatrix

/-- The abstract class `FIBB<Ring>` together with its base `BB<Ring>`: one field per pure
virtual member (stream input and output left out). `Φ` is the type of field objects, `K`
the type of field elements and `G` the type of random generator states. -/
structure FIBB (Φ K G : Type) where
  /-- Member `bbTag()`. -/
  bbTag : BBType
  /-- Member `rowdim()`. -/
  rowdim : Nat
  /-- Member `coldim()`. -/
  coldim : Nat
  /-- Member `field()`. -/
  field : Φ
  /-- Member `applyLeft(Y, X)`, documented `Y = XA`. -/
  applyLeft : DenseMatrix K → DenseMatrix K → DenseMatrix K
  /-- Member `applyRight(Y, X)`, documented `Y = AX`. -/
  applyRight : DenseMatrix K → DenseMatrix K → DenseMatrix K
  /-- Member `rank(r)`. -/
  rank : Nat
  /-- Member `det(d)`. -/
  det : K
  /-- Member `solveRight(Y, X)`, documented `Y: AY = X`. -/
  solveRight : DenseMatrix K → DenseMatrix K → DenseMatrix K
  /-- Member `solveLeft(Y, X)`, documented `Y: YA = X`. -/
  solveLeft : DenseMatrix K → DenseMatrix K → DenseMatrix K
  /-- Member `nullspaceRandomRight(N)`, documented `N: AN = 0, each col random`. -/
  nullspaceRandomRight : DenseMatrix K → G → DenseMatrix K × G
  /-- Member `nullspaceRandomLeft(N)`, documented `N: NA = 0, each row random`. -/
  nullspaceRandomLeft : DenseMatrix K → G → DenseMatrix K × G
  /-- Member `nullspaceBasisRight(B)`. -/
  nullspaceBasisRight : DenseMatrix K → DenseMatrix K
  /-- Member `nullspaceBasisLeft(B)`. -/
  nullspaceBasisLeft : DenseMatrix K → DenseMatrix K

/-- The data members of `FIBBProduct<Field>`: the two operand pointers and the two
ownership flags. -/
structure FIBBProduct (Φ K G : Type) where
  /-- Pointer `Ap`, the left operand. -/
  Ap : FIBB Φ K G
  /-- Pointer `Bp`, the right operand. -/
  Bp : FIBB Φ K G
  /-- Flag `allocA`: true only if `new` was used within `init`. -/
  allocA : Bool
  /-- Flag `allocB`: true only if `new` was used within `init`. -/
  allocB : Bool

namespace FIBBProduct

variable {Φ K G : Type}

/-- Source `bbTag() const { return product; }` -/
def bbTag (_P : FIBBProduct Φ K G) : BBType :=
  BBType.product

/-- Source `rowdim() const { return Ap->rowdim(); }` -/
def rowdim (P : FIBBProduct Φ K G) : Nat :=
  P.Ap.rowdim

/-- Source `coldim() const { return Bp->coldim(); }` -/
def coldim (P : FIBBProduct Φ K G) : Nat :=
  P.Bp.coldim

/-- Source `field() const { return Ap->field(); }` -/
def field (P : FIBBProduct Φ K G) : Φ :=
  P.Ap.field

/-- Source `applyRight(Y, X)`: `X1` is allocated as `Bp->rowdim() × X.coldim()`, then
`Bp->applyRight(X1, X); Ap->applyRight(Y, X1)`. -/
def applyRight [Zero K] (P : FIBBProduct Φ K G) (Y X : DenseMatrix K) : DenseMatrix K :=
  let X1 := DenseMatrix.alloc P.Bp.rowdim X.coldim
  let X1 := P.Bp.applyRight X1 X
  P.Ap.applyRight Y X1

/-- Source `applyLeft(Y, X)`: `X1` is allocated as `X.rowdim() × Ap->coldim()`, then
`Ap->applyLeft(X1, X); Bp->applyLeft(Y, X1)`. -/
def applyLeft [Zero K] (P : FIBBProduct Φ K G) (Y X : DenseMatrix K) : DenseMatrix K :=
  let X1 := DenseMatrix.alloc X.rowdim P.Ap.coldim
  let X1 := P.Ap.applyLeft X1 X
  P.Bp.applyLeft Y X1

/-- Source `rank(r)`: `r = std::min(Ap->rank(s), Bp->rank(t))`. -/
def rank (P : FIBBProduct Φ K G) : Nat :=
  min P.Ap.rank P.Bp.rank

/-- Source `det(d)`: `Ap->det(d); Bp->det(e); return Ap->field().mulin(d, e)`. -/
def det [Mul K] (P : FIBBProduct Φ K G) : K :=
  let d := P.Ap.det
  let e := P.Bp.det
  d * e

/-- Source `solveRight(Y, X)`: `Z` is allocated as `Ap->coldim() × X.coldim()`, then
`Ap->solveRight(Z, X); return Bp->solveRight(Y, Z)`. -/
def solveRight [Zero K] (P : FIBBProduct Φ K G) (Y X : DenseMatrix K) : DenseMatrix K :=
  let Z := DenseMatrix.alloc P.Ap.coldim X.coldim
  let Z := P.Ap.solveRight Z X
  P.Bp.solveRight Y Z

/-- Source `solveLeft(Y, X)`: `Z` is allocated as `X.rowdim() × Ap->coldim()`, then
`Bp->solveLeft(Z, X); return Ap->solveLeft(Y, Z)`. -/
def solveLeft [Zero K] (P : FIBBProduct Φ K G) (Y X : DenseMatrix K) : DenseMatrix K :=
  let Z := DenseMatrix.alloc X.rowdim P.Ap.coldim
  let Z := P.Bp.solveLeft Z X
  P.Ap.solveLeft Y Z

/-- Source `nullspaceRandomRight(N)`: when `Ap` is square with `rank == coldim` return
`Bp->nullspaceRandomRight(N)`; otherwise `N1` is a copy of `N`,
`Ap->nullspaceRandomRight(N1); return Bp->solveRight(N, N1)`. -/
def nullspaceRandomRight (P : FIBBProduct Φ K G) (N : DenseMatrix K) (g : G) :
    DenseMatrix K × G :=
  if P.Ap.rowdim = P.Ap.coldim ∧ P.Ap.rank = P.Ap.coldim then
    P.Bp.nullspaceRandomRight N g
  else
    let N1 := N
    let r := P.Ap.nullspaceRandomRight N1 g
    (P.Bp.solveRight N r.1, r.2)

/-- Source `nullspaceRandomLeft(N)`: when `Bp` is square with `rank == coldim` return
`Ap->nullspaceRandomLeft(N)`; otherwise `N1` is a copy of `N`,
`Bp->nullspaceRandomLeft(N1); return Ap->solveLeft(N, N1)`. -/
def nullspaceRandomLeft (P : FIBBProduct Φ K G) (N : DenseMatrix K) (g : G) :
    DenseMatrix K × G :=
  if P.Bp.rowdim = P.Bp.coldim ∧ P.Bp.rank = P.Bp.coldim then
    P.Ap.nullspaceRandomLeft N g
  else
    let N1 := N
    let r := P.Bp.nullspaceRandomLeft N1 g
    (P.Ap.solveLeft N r.1, r.2)

/-- Source `nullspaceBasisRight(N)`: when `Ap` is square with `rank == rowdim`,
`Bp->nullspaceBasisRight(N)`; otherwise `N1` starts empty, `Ap->nullspaceBasisRight(N1);
N.resize(N1.rowdim(), N1.coldim()); Bp->solveRight(N, N1)`. -/
def nullspaceBasisRight [Zero K] (P : FIBBProduct Φ K G) (N : DenseMatrix K) :
    DenseMatrix K :=
  if P.Ap.rowdim = P.Ap.coldim ∧ P.Ap.rank = P.Ap.rowdim then
    P.Bp.nullspaceBasisRight N
  else
    let N1 := DenseMatrix.alloc 0 0
    let N1 := P.Ap.nullspaceBasisRight N1
    let N := N.resize N1.rowdim N1.coldim
    P.Bp.solveRight N N1

/-- Source `nullspaceBasisLeft(N)`: when `Bp` is square with `rank == rowdim`,
`Ap->nullspaceBasisLeft(N)`; otherwise `N1` starts empty, `Bp->nullspaceBasisLeft(N1);
N.resize(N1.rowdim(), N1.coldim()); Ap->solveLeft(N, N1)`. -/
def nullspaceBasisLeft [Zero K] (P : FIBBProduct Φ K G) (N : DenseMatrix K) :
    DenseMatrix K :=
  if P.Bp.rowdim = P.Bp.coldim ∧ P.Bp.rank = P.Bp.rowdim then
    P.Ap.nullspaceBasisLeft N
  else
    let N1 := DenseMatrix.alloc 0 0
    let N1 := P.Bp.nullspaceBasisLeft N1
    let N := N.resize N1.rowdim N1.coldim
    P.Ap.solveLeft N N1

/-- A `FIBBProduct` used through a `FIBB` pointer: every virtual member dispatches to the
override above. -/
def toFIBB [Zero K] [Mul K] (P : FIBBProduct Φ K G) : FIBB Φ K G where
  bbTag := P.bbTag
  rowdim := P.rowdim
  coldim := P.coldim
  field := P.field
  applyLeft := P.applyLeft
  applyRight := P.applyRight
  rank := P.rank
  det := P.det
  solveRight := P.solveRight
  solveLeft := P.solveLeft
  nullspaceRandomRight := P.nullspaceRandomRight
  nullspaceRandomLeft := P.nullspaceRandomLeft
  nullspaceBasisRight := P.nullspaceBasisRight
  nullspaceBasisLeft := P.nullspaceBasisLeft

/-- Source `init(A1, A2)`: `Ap = &A1; Bp = &A2; allocA = allocB = false`. -/
def init (A1 A2 : FIBB Φ K G) : FIBBProduct Φ K G :=
  ⟨A1, A2, false, false⟩

/-- Source `init(A1, A2, A3)`: `Ap = &A1`, not owned; `Bp = new FIBBProduct(A2, A3)`, owned. -/
def init3 [Zero K] [Mul K] (A1 A2 A3 : FIBB Φ K G) : FIBBProduct Φ K G :=
  ⟨A1, (init A2 A3).toFIBB, false, true⟩

/-- Source `init(A1, A2, A3, A4)`: `Ap = new FIBBProduct(A1, A2)` and
`Bp = new FIBBProduct(A3, A4)`, both owned. -/
def init4 [Zero K] [Mul K] (A1 A2 A3 A4 : FIBB Φ K G) : FIBBProduct Φ K G :=
  ⟨(init A1 A2).toFIBB, (init A3 A4).toFIBB, true, true⟩

/-- Source `init(A1, A2, A3, A4, A5)`: `Ap = &A1`, not owned;
`Bp = new FIBBProduct(A1, A2, A3, A4)`, owned. The fifth operand is not used. -/
def init5 [Zero K] [Mul K] (A1 A2 A3 A4 _A5 : FIBB Φ K G) : FIBBProduct Φ K G :=
  ⟨A1, (init4 A1 A2 A3 A4).toFIBB, false, true⟩

end FIBBProduct

/-- Source `genericNullspaceRandomRight(N, A)`: `X` has the shape of `N` and is filled at random,
`Y` is allocated as `A.rowdim() × N.coldim()`, then `A.applyRight(Y, X);
A.solveRight(N, Y); return subin(N, X)`.  The member `random()` of the matrix type is not
in the sources and is taken as the parameter `random`. -/
def genericNullspaceRandomRight {Φ K G : Type} [Zero K] [Sub K]
    (random : DenseMatrix K → G → DenseMatrix K × G)
    (N : DenseMatrix K) (A : FIBB Φ K G) (g : G) : DenseMatrix K × G :=
  let Xb := DenseMatrix.alloc N.rowdim N.coldim
  let Yb := DenseMatrix.alloc A.rowdim N.coldim
  let r := random Xb g
  let X := r.1
  let Y := A.applyRight Yb X
  let N := A.solveRight N Y
  (DenseMatrix.subin N X, r.2)

/-- Source `genericNullspaceRandomLeft(N, A)`: `X` has the shape of `N` and is filled at random,
`Y` is allocated as `N.rowdim() × A.coldim()`, then `A.applyLeft(Y, X);
A.solveLeft(N, Y); return subin(N, X)`. -/
def genericNullspaceRandomLeft {Φ K G : Type} [Zero K] [Sub K]
    (random : DenseMatrix K → G → DenseMatrix K × G)
    (N : DenseMatrix K) (A : FIBB Φ K G) (g : G) : DenseMatrix K × G :=
  let Xb := DenseMatrix.alloc N.rowdim N.coldim
  let Yb := DenseMatrix.alloc N.rowdim A.coldim
  let r := random Xb g
  let X := r.1
  let Y := A.applyLeft Yb X
  let N := A.solveLeft N Y
  (DenseMatrix.subin N X, r.2)

/-! ## The documented contracts of a `FIBB`

Each predicate relates one member of an abstract `FIBB` to a matrix `M` that the blackbox
stands for. Output matrices are shaped by the caller, so each predicate speaks about
outputs of the shape the documentation asks for. -/

namespace FIBB

variable {Φ K G : Type} [Field K]

/-- The blackbox reports `m` rows and `n` columns. -/
def HasShape (A : FIBB Φ K G) (m n : Nat) : Prop :=
  A.rowdim = m ∧ A.coldim = n

/-- Documented `applyRight`: `Y = AX`. -/
def AppliesRightAs (A : FIBB Φ K G) {m n : Nat} (M : Matrix (Fin m) (Fin n) K) : Prop :=
  ∀ (k : Nat) (Y : DenseMatrix K) (X : Matrix (Fin n) (Fin k) K),
    Y.rowdim = m → Y.coldim = k →
      A.applyRight Y (DenseMatrix.ofMatrix X) = DenseMatrix.ofMatrix (M * X)

/-- Documented `applyLeft`: `Y = XA`. -/
def AppliesLeftAs (A : FIBB Φ K G) {m n : Nat} (M : Matrix (Fin m) (Fin n) K) : Prop :=
  ∀ (k : Nat) (Y : DenseMatrix K) (X : Matrix (Fin k) (Fin m) K),
    Y.rowdim = k → Y.coldim = n →
      A.applyLeft Y (DenseMatrix.ofMatrix X) = DenseMatrix.ofMatrix (X * M)

/-- The member `rank` returns the rank of `M`. -/
def RankIs (A : FIBB Φ K G) {m n : Nat} (M : Matrix (Fin m) (Fin n) K) : Prop :=
  A.rank = M.rank

/-- The member `det` returns the determinant of `M`. -/
def DetIs (A : FIBB Φ K G) {n : Nat} (M : Matrix (Fin n) (Fin n) K) : Prop :=
  A.det = M.det

/-- Documented `solveRight`: `Y: AY = X`, a solution of every consistent system; nothing
is said about inconsistent systems. -/
def SolvesRightAs (A : FIBB Φ K G) {m n : Nat} (M : Matrix (Fin m) (Fin n) K) : Prop :=
  ∀ (k : Nat) (Y : DenseMatrix K) (X : Matrix (Fin m) (Fin k) K),
    Y.rowdim = n → Y.coldim = k → (∃ Y0 : Matrix (Fin n) (Fin k) K, M * Y0 = X) →
      ∃ Z : Matrix (Fin n) (Fin k) K,
        A.solveRight Y (DenseMatrix.ofMatrix X) = DenseMatrix.ofMatrix Z ∧ M * Z = X

/-- Documented `solveLeft`: `Y: YA = X`, a solution of every consistent system. -/
def SolvesLeftAs (A : FIBB Φ K G) {m n : Nat} (M : Matrix (Fin m) (Fin n) K) : Prop :=
  ∀ (k : Nat) (Y : DenseMatrix K) (X : Matrix (Fin k) (Fin n) K),
    Y.rowdim = k → Y.coldim = m → (∃ Y0 : Matrix (Fin k) (Fin m) K, Y0 * M = X) →
      ∃ Z : Matrix (Fin k) (Fin m) K,
        A.solveLeft Y (DenseMatrix.ofMatrix X) = DenseMatrix.ofMatrix Z ∧ Z * M = X

/-- Documented `nullspaceRandomRight`: `N: AN = 0`, for a caller-shaped `N` and every
state of the generator. -/
def SamplesNullspaceRightOf (A : FIBB Φ K G) {m n : Nat} (M : Matrix (Fin m) (Fin n) K) :
    Prop :=
  ∀ (k : Nat) (N : DenseMatrix K) (g : G), N.rowdim = n → N.coldim = k →
    ∃ Z : Matrix (Fin n) (Fin k) K,
      (A.nullspaceRandomRight N g).1 = DenseMatrix.ofMatrix Z ∧ M * Z = 0

/-- Documented `nullspaceRandomLeft`: `N: NA = 0`. -/
def SamplesNullspaceLeftOf (A : FIBB Φ K G) {m n : Nat} (M : Matrix (Fin m) (Fin n) K) :
    Prop :=
  ∀ (k : Nat) (N : DenseMatrix K) (g : G), N.rowdim = k → N.coldim = m →
    ∃ Z : Matrix (Fin k) (Fin m) K,
      (A.nullspaceRandomLeft N g).1 = DenseMatrix.ofMatrix Z ∧ Z * M = 0

end FIBB

/-- The columns of `Z` are a basis of the right nullspace of `M`:
(1) `MZ = 0`, (2) `Mx = 0` implies `x = Zy` for some `y`, (3) `Z` has full column rank. -/
def IsRightNullspaceBasis {K : Type} [Field K] {m n k : Nat}
    (M : Matrix (Fin m) (Fin n) K) (Z : Matrix (Fin n) (Fin k) K) : Prop :=
  M * Z = 0 ∧ (∀ x : Fin n → K, M.mulVec x = 0 → ∃ y : Fin k → K, x = Z.mulVec y) ∧
    Z.rank = k

/-- The rows of `Z` are a basis of the left nullspace of `M`:
`ZM = 0`, `xM = 0` implies `x = yZ` for some `y`, and `Z` has full row rank. -/
def IsLeftNullspaceBasis {K : Type} [Field K] {m n k : Nat}
    (M : Matrix (Fin m) (Fin n) K) (Z : Matrix (Fin k) (Fin m) K) : Prop :=
  Z * M = 0 ∧ (∀ x : Fin m → K, Matrix.vecMul x M = 0 → ∃ y : Fin k → K, x = Matrix.vecMul y Z) ∧
    Z.rank = k

namespace FIBB

variable {Φ K G : Type} [Field K]

/-- Documented `nullspaceBasisRight`: whatever `B` held, it is resized and filled with a
basis of the right nullspace. -/
def NullspaceBasisRightOf (A : FIBB Φ K G) {m n : Nat} (M : Matrix (Fin m) (Fin n) K) :
    Prop :=
  ∀ B0 : DenseMatrix K, ∃ (k : Nat) (Z : Matrix (Fin n) (Fin k) K),
    A.nullspaceBasisRight B0 = DenseMatrix.ofMatrix Z ∧ IsRightNullspaceBasis M Z

/-- Documented `nullspaceBasisLeft`: whatever `B` held, it is resized and filled with a
row basis of the left nullspace. -/
def NullspaceBasisLeftOf (A : FIBB Φ K G) {m n : Nat} (M : Matrix (Fin m) (Fin n) K) :
    Prop :=
  ∀ B0 : DenseMatrix K, ∃ (k : Nat) (Z : Matrix (Fin k) (Fin m) K),
    A.nullspaceBasisLeft B0 = DenseMatrix.ofMatrix Z ∧ IsLeftNullspaceBasis M Z

/-- The whole documented contract of a square `FIBB` of order `n` standing for `M`. -/
structure Contract (A : FIBB Φ K G) {n : Nat} (M : Matrix (Fin n) (Fin n) K) : Prop where
  /-- The reported shape. -/
  shape : A.HasShape n n
  /-- Right application. -/
  applyRight : A.AppliesRightAs M
  /-- Left application. -/
  applyLeft : A.AppliesLeftAs M
  /-- The rank. -/
  rank : A.RankIs M
  /-- The determinant. -/
  det : A.DetIs M
  /-- Right solving. -/
  solveRight : A.SolvesRightAs M
  /-- Left solving. -/
  solveLeft : A.SolvesLeftAs M
  /-- Right nullspace sampling. -/
  nullspaceRandomRight : A.SamplesNullspaceRightOf M
  /-- Left nullspace sampling. -/
  nullspaceRandomLeft : A.SamplesNullspaceLeftOf M
  /-- Right nullspace basis. -/
  nullspaceBasisRight : A.NullspaceBasisRightOf M
  /-- Left nullspace basis. -/
  nullspaceBasisLeft : A.NullspaceBasisLeftOf M

end FIBB

/-! ## Concrete blackboxes

A blackbox given by explicit tables: its matrix `M`, a matrix `S` by which it solves, and
the values it reports for rank, determinant and the two nullspace bases. It meets the
documented contract as soon as `M * S * M = M` and the reported values are the true ones. -/

/-- Product `M · X` of a square table with a dense matrix value. -/
def DenseMatrix.mulTableLeft {K : Type} [Field K] {n : Nat} (M : Matrix (Fin n) (Fin n) K)
    (X : DenseMatrix K) : DenseMatrix K :=
  ⟨n, X.coldim, fun i j => ∑ l : Fin n, M i l * X.get l.val j.val⟩

/-- Product `X · M` of a dense matrix value with a square table. -/
def DenseMatrix.mulTableRight {K : Type} [Field K] {n : Nat} (X : DenseMatrix K)
    (M : Matrix (Fin n) (Fin n) K) : DenseMatrix K :=
  ⟨X.rowdim, n, fun i j => ∑ l : Fin n, X.get i.val l.val * M l j⟩

/-- The sample matrix drawn in generator state `g`: entry `(i, j)` is `g + i + j`. -/
def sampleAt {K : Type} [Field K] (g m n : Nat) : Matrix (Fin m) (Fin n) K :=
  fun i j => ((g + i.val + j.val : Nat) : K)

/-- A blackbox given by explicit tables; the generator state is a counter. -/
def tableFIBB {K : Type} [Field K] {n : Nat} (tag : BBType) (M S : Matrix (Fin n) (Fin n) K)
    (r : Nat) (d : K) (BR BL : DenseMatrix K) : FIBB Unit K Nat where
  bbTag := tag
  rowdim := n
  coldim := n
  field := ()
  applyLeft := fun _ X => X.mulTableRight M
  applyRight := fun _ X => X.mulTableLeft M
  rank := r
  det := d
  solveRight := fun _ X => X.mulTableLeft S
  solveLeft := fun _ X => X.mulTableRight S
  nullspaceRandomRight := fun N g =>
    ((DenseMatrix.ofMatrix (sampleAt g n N.coldim)).mulTableLeft (1 - S * M), g + 1)
  nullspaceRandomLeft := fun N g =>
    ((DenseMatrix.ofMatrix (sampleAt g N.rowdim n)).mulTableRight (1 - M * S), g + 1)
  nullspaceBasisRight := fun _ => BR
  nullspaceBasisLeft := fun _ => BL

/-- Order 2 over GF(3), matrix `diag(1, 0)`, singular; it solves by `[1 0; 1 0]`. -/
def projA : FIBB Unit (ZMod 3) Nat :=
  tableFIBB BBType.other (Matrix.diagonal ![1, 0]) !![1, 0; 1, 0] 1 0
    (DenseMatrix.ofMatrix !![0; 1]) (DenseMatrix.ofMatrix !![0, 1])

/-- Order 2 over GF(3), matrix `diag(1, 0)`, singular; it solves by `[1 1; 0 0]`. -/
def projB : FIBB Unit (ZMod 3) Nat :=
  tableFIBB BBType.other (Matrix.diagonal ![1, 0]) !![1, 1; 0, 0] 1 0
    (DenseMatrix.ofMatrix !![0; 1]) (DenseMatrix.ofMatrix !![0, 1])

/-- Order 2 over GF(3), the diagonal matrix `diag(0, 1)`, singular. -/
def projC : FIBB Unit (ZMod 3) Nat :=
  tableFIBB BBType.diagonal (Matrix.diagonal ![0, 1]) (Matrix.diagonal ![0, 1]) 1 0
    (DenseMatrix.ofMatrix !![1; 0]) (DenseMatrix.ofMatrix !![1, 0])

/-- Order 2 over GF(3), the diagonal matrix `diag(2, 1)`, nonsingular. -/
def unitD : FIBB Unit (ZMod 3) Nat :=
  tableFIBB BBType.diagonal (Matrix.diagonal ![2, 1]) (Matrix.diagonal ![2, 1]) 2 2
    (DenseMatrix.ofMatrix (0 : Matrix (Fin 2) (Fin 0) (ZMod 3)))
    (DenseMatrix.ofMatrix (0 : Matrix (Fin 0) (Fin 2) (ZMod 3)))

/-- A concrete `random()` for the generic fallbacks: the matrix is filled with the sample
of the generator state `g`, and the counter advances. -/
def fillAt {K : Type} [Field K] (X : DenseMatrix K) (g : Nat) : DenseMatrix K × Nat :=
  (DenseMatrix.ofMatrix (sampleAt g X.rowdim X.coldim), g + 1)

/-! ## Rectangular blackboxes -/

/-- Product `M · X` of a rectangular table with a dense matrix value. -/
def DenseMatrix.mulRectLeft {K : Type} [Field K] {m n : Nat} (M : Matrix (Fin m) (Fin n) K)
    (X : DenseMatrix K) : DenseMatrix K :=
  ⟨m, X.coldim, fun i j => ∑ l : Fin n, M i l * X.get l.val j.val⟩

/-- Product `X · M` of a dense matrix value with a rectangular table. -/
def DenseMatrix.mulRectRight {K : Type} [Field K] {m n : Nat} (X : DenseMatrix K)
    (M : Matrix (Fin m) (Fin n) K) : DenseMatrix K :=
  ⟨X.rowdim, n, fun i j => ∑ l : Fin m, X.get i.val l.val * M l j⟩

/-- A blackbox given by a rectangular table `M` (`m × n`) and a table `S` (`n × m`) by
which it solves; the generator state is a counter. -/
def rectFIBB {K : Type} [Field K] {m n : Nat} (M : Matrix (Fin m) (Fin n) K)
    (S : Matrix (Fin n) (Fin m) K) (r : Nat) (BR BL : DenseMatrix K) : FIBB Unit K Nat where
  bbTag := BBType.other
  rowdim := m
  coldim := n
  field := ()
  applyLeft := fun _ X => X.mulRectRight M
  applyRight := fun _ X => X.mulRectLeft M
  rank := r
  det := 0
  solveRight := fun _ X => X.mulRectLeft S
  solveLeft := fun _ X => X.mulRectRight S
  nullspaceRandomRight := fun N g =>
    ((DenseMatrix.ofMatrix (sampleAt g n N.coldim)).mulRectLeft (1 - S * M), g + 1)
  nullspaceRandomLeft := fun N g =>
    ((DenseMatrix.ofMatrix (sampleAt g N.rowdim m)).mulRectRight (1 - M * S), g + 1)
  nullspaceBasisRight := fun _ => BR
  nullspaceBasisLeft := fun _ => BL

/-- Order 1 over GF(3), the zero matrix, singular. -/
def zeroOne : FIBB Unit (ZMod 3) Nat :=
  tableFIBB BBType.diagonal (0 : Matrix (Fin 1) (Fin 1) (ZMod 3)) 0 0 0
    (DenseMatrix.ofMatrix (1 : Matrix (Fin 1) (Fin 1) (ZMod 3)))
    (DenseMatrix.ofMatrix (1 : Matrix (Fin 1) (Fin 1) (ZMod 3)))

/-- The `1 × 2` matrix `[1 0]` over GF(3); it solves by the column `(1, 0)`. -/
def wideB : FIBB Unit (ZMod 3) Nat :=
  rectFIBB (!![1, 0] : Matrix (Fin 1) (Fin 2) (ZMod 3)) !![1; 0] 1
    (DenseMatrix.ofMatrix (!![0; 1] : Matrix (Fin 2) (Fin 1) (ZMod 3)))
    (DenseMatrix.ofMatrix (0 : Matrix (Fin 0) (Fin 1) (ZMod 3)))

/-- The `2 × 1` matrix with column `(1, 0)` over GF(3); it solves by the row `[1 0]`. -/
def tallE : FIBB Unit (ZMod 3) Nat :=
  rectFIBB (!![1; 0] : Matrix (Fin 2) (Fin 1) (ZMod 3)) !![1, 0] 1
    (DenseMatrix.ofMatrix (0 : Matrix (Fin 1) (Fin 0) (ZMod 3)))
    (DenseMatrix.ofMatrix (!![0, 1] : Matrix (Fin 1) (Fin 2) (ZMod 3)))

/-! ## The locals of the solving branch of `nullspaceRandomRight` -/

/-- The values the else-branch of `FIBBProduct::nullspaceRandomRight` goes through. -/
structure NullspaceRandomRightSteps (K G : Type) where
  /-- The local `N1` as declared: `Matrix N1(N)`. -/
  N1 : DenseMatrix K
  /-- The local `N1` after `Ap->nullspaceRandomRight(N1)`: the right-hand side handed to
  `Bp->solveRight`. -/
  rhs : DenseMatrix K
  /-- The returned `Bp->solveRight(N, N1)`. -/
  result : DenseMatrix K
  /-- The generator state afterwards. -/
  gen : G

/-- The else-branch of `nullspaceRandomRight(N)`, statement by statement:
`Matrix N1(N); Ap->nullspaceRandomRight(N1); return Bp->solveRight(N, N1)`. -/
def FIBBProduct.nullspaceRandomRightSteps {Φ K G : Type} (P : FIBBProduct Φ K G)
    (N : DenseMatrix K) (g : G) : NullspaceRandomRightSteps K G :=
  let N1 := N
  let r := P.Ap.nullspaceRandomRight N1 g
  ⟨N1, r.1, P.Bp.solveRight N r.1, r.2⟩

/-! ## Ownership of the children

The free store as far as `FIBBProduct` uses it: `new FIBBProduct(...)` inside `init`,
`delete` inside the destructor. Caller-supplied operands are named by a number; objects
made by `new` get consecutive addresses. -/

/-- The address of an object: one the caller supplied, or one made by `new`. -/
inductive Addr where
  | caller (i : Nat)
  | heap (a : Nat)
  deriving DecidableEq

/-- What a `const FIBB*` member points to, as far as ownership goes: nothing, a
caller-supplied operand, or a `FIBBProduct` made by `new` at address `a` with its own two
pointers and flags. -/
inductive Obj where
  | null
  | operand (i : Nat)
  | product (a : Nat) (Ap Bp : Obj) (allocA allocB : Bool)
  deriving DecidableEq

/-- The data members of a `FIBBProduct` object, as far as ownership goes. -/
structure Cell where
  /-- Pointer `Ap`. -/
  Ap : Obj
  /-- Pointer `Bp`. -/
  Bp : Obj
  /-- Flag `allocA`. -/
  allocA : Bool
  /-- Flag `allocB`. -/
  allocB : Bool
  deriving DecidableEq

/-- The free store: the address the next `new` returns (all smaller ones have been
handed out) and the addresses passed to `delete`, in order. -/
structure Store where
  /-- Address of the next object made by `new`. -/
  next : Nat
  /-- Addresses released by `delete`, oldest first. -/
  freed : List Addr
  deriving DecidableEq

/-- The address an object lives at. -/
def Obj.addr : Obj → Option Addr
  | Obj.null => none
  | Obj.operand i => some (Addr.caller i)
  | Obj.product a _ _ _ _ => some (Addr.heap a)

/-- The object was made by a `new` executed at or after address `n`. -/
def Obj.createdSince (n : Nat) : Obj → Bool
  | Obj.product a _ _ _ _ => decide (n ≤ a)
  | _ => false

/-- The releases caused by `delete p`: the destructor of the object runs, which for a
`FIBBProduct` is `if (allocA) delete Ap; if (allocB) delete Bp;`, then its own storage is
released. A null pointer releases nothing. -/
def Obj.delete : Obj → List Addr
  | Obj.null => []
  | Obj.operand i => [Addr.caller i]
  | Obj.product a Ap Bp allocA allocB =>
    (if allocA then Ap.delete else []) ++ (if allocB then Bp.delete else []) ++ [Addr.heap a]

namespace Cell

/-- The members before any `init` ran; the default constructor sets exactly these:
`Ap(0), Bp(0), allocA(false), allocB(false)`. -/
def blank : Cell :=
  ⟨Obj.null, Obj.null, false, false⟩

/-- Source `~FIBBProduct(){ if (allocA) delete Ap; if (allocB) delete Bp; }`. -/
def destroy (c : Cell) (s : Store) : Store :=
  let s := if c.allocA then { s with freed := s.freed ++ c.Ap.delete } else s
  if c.allocB then { s with freed := s.freed ++ c.Bp.delete } else s

/-- Source `init(A1, A2)`: `Ap = &A1; Bp = &A2; allocA = allocB = false`. The members the
object had before are overwritten without being read. -/
def init2 (_this : Cell) (A1 A2 : Nat) (s : Store) : Cell × Store :=
  (⟨Obj.operand A1, Obj.operand A2, false, false⟩, s)

/-- The expression `new FIBBProduct(A1, A2)`: storage at the next address, on which the
constructor runs `init(A1, A2)`. -/
def newProduct2 (A1 A2 : Nat) (s : Store) : Obj × Store :=
  let a := s.next
  let r := init2 blank A1 A2 { s with next := s.next + 1 }
  (Obj.product a r.1.Ap r.1.Bp r.1.allocA r.1.allocB, r.2)

/-- Source `init(A1, A2, A3)`: `Ap = &A1; allocA = false; Bp = new FIBBProduct(A2, A3);
allocB = true`. -/
def init3 (_this : Cell) (A1 A2 A3 : Nat) (s : Store) : Cell × Store :=
  let b := newProduct2 A2 A3 s
  (⟨Obj.operand A1, b.1, false, true⟩, b.2)

/-- Source `init(A1, A2, A3, A4)`: `Ap = new FIBBProduct(A1, A2); allocA = true;
Bp = new FIBBProduct(A3, A4); allocB = true`. -/
def init4 (_this : Cell) (A1 A2 A3 A4 : Nat) (s : Store) : Cell × Store :=
  let a := newProduct2 A1 A2 s
  let b := newProduct2 A3 A4 a.2
  (⟨a.1, b.1, true, true⟩, b.2)

/-- The expression `new FIBBProduct(A1, A2, A3, A4)`: storage at the next address, on
which the constructor runs `init(A1, A2, A3, A4)`. -/
def newProduct4 (A1 A2 A3 A4 : Nat) (s : Store) : Obj × Store :=
  let a := s.next
  let r := init4 blank A1 A2 A3 A4 { s with next := s.next + 1 }
  (Obj.product a r.1.Ap r.1.Bp r.1.allocA r.1.allocB, r.2)

/-- Source `init(A1, A2, A3, A4, A5)`: `Ap = &A1; allocA = false;
Bp = new FIBBProduct(A1, A2, A3, A4); allocB = true`. -/
def init5 (_this : Cell) (A1 A2 A3 A4 _A5 : Nat) (s : Store) : Cell × Store :=
  let b := newProduct4 A1 A2 A3 A4 s
  (⟨Obj.operand A1, b.1, false, true⟩, b.2)

end Cell

/-- The blackbox an ownership-level object stands for, the caller-supplied operand `i`
being `env i`. -/
def Obj.denote {Φ K G : Type} [Zero K] [Mul K] (env : Nat → FIBB Φ K G) :
    Obj → Option (FIBB Φ K G)
  | Obj.null => none
  | Obj.operand i => some (env i)
  | Obj.product _ Ap Bp allocA allocB =>
    match Ap.denote env, Bp.denote env with
    | some A, some B => some (FIBBProduct.mk A B allocA allocB).toFIBB
    | _, _ => none

/-- The `FIBBProduct` an ownership-level record stands for. -/
def Cell.denote {Φ K G : Type} [Zero K] [Mul K] (env : Nat → FIBB Φ K G) (c : Cell) :
    Option (FIBBProduct Φ K G) :=
  match c.Ap.denote env, c.Bp.denote env with
  | some A, some B => some ⟨A, B, c.allocA, c.allocB⟩
  | _, _ => none

/-- The addresses of the objects made by `new` between two states of the store. -/
def Store.createdSince (s t : Store) : List Addr :=
  (List.range' s.next (t.next - s.next)).map Addr.heap

/-- The addresses released between two states of the store. -/
def Store.freedSince (s t : Store) : List Addr :=
  t.freed.drop s.freed.length

/-- The ownership discipline for the outcome `r` of an `init` started in store `s` and
followed by the destructor: each flag is set exactly when that child was made by `new`
during the `init`; the destructor releases the objects made during the `init`, each once,
and no caller-supplied operand. -/
def Cell.Disciplined (s : Store) (r : Cell × Store) : Prop :=
  (r.1.allocA = true ↔ r.1.Ap.createdSince s.next = true) ∧
    (r.1.allocB = true ↔ r.1.Bp.createdSince s.next = true) ∧
    (s.freedSince (r.1.destroy r.2)).Perm (s.createdSince r.2) ∧
    ∀ i : Nat, Addr.caller i ∉ s.freedSince (r.1.destroy r.2)

/-! ## Trees of products -/

/-- A sequence of matrices with matching inner dimensions, read left to right. -/
inductive MatPath (K : Type) : Nat → Nat → Type where
  | nil (m : Nat) : MatPath K m m
  | cons {m n p : Nat} (M : Matrix (Fin m) (Fin n) K) (rest : MatPath K n p) : MatPath K m p

namespace MatPath

variable {K : Type}

/-- The product `M1 · M2 · … · Mk` of the sequence. -/
def prod [Field K] : {m p : Nat} → MatPath K m p → Matrix (Fin m) (Fin p) K
  | _, _, nil _ => 1
  | _, _, cons M rest => M * rest.prod

/-- Concatenation of two sequences. -/
def append : {m n p : Nat} → MatPath K m n → MatPath K n p → MatPath K m p
  | _, _, _, nil _, q => q
  | _, _, _, cons M rest, q => cons M (rest.append q)

end MatPath

/-- A finite binary tree of `FIBBProduct` nodes; a leaf is a blackbox together with the
matrix it stands for, and the inner dimensions match along the leaves. -/
inductive ProductTree (Φ K G : Type) : Nat → Nat → Type where
  | leaf {m n : Nat} (A : FIBB Φ K G) (M : Matrix (Fin m) (Fin n) K) : ProductTree Φ K G m n
  | node {m n p : Nat} (l : ProductTree Φ K G m n) (r : ProductTree Φ K G n p) :
    ProductTree Φ K G m p

namespace ProductTree

variable {Φ K G : Type}

/-- The blackbox at the root: a leaf is itself, a node is the two-operand product of its
children. -/
def toFIBB [Zero K] [Mul K] : {m p : Nat} → ProductTree Φ K G m p → FIBB Φ K G
  | _, _, leaf A _ => A
  | _, _, node l r => (FIBBProduct.init l.toFIBB r.toFIBB).toFIBB

/-- The leaf blackboxes, left to right. -/
def leaves : {m p : Nat} → ProductTree Φ K G m p → List (FIBB Φ K G)
  | _, _, leaf A _ => [A]
  | _, _, node l r => l.leaves ++ r.leaves

/-- The leaf matrices, left to right. -/
def path : {m p : Nat} → ProductTree Φ K G m p → MatPath K m p
  | _, _, leaf _ M => MatPath.cons M (MatPath.nil _)
  | _, _, node l r => l.path.append r.path

/-- Every leaf reports the shape of its matrix and applies as multiplication by it. -/
def LeavesApply [Field K] : {m p : Nat} → ProductTree Φ K G m p → Prop
  | m, p, leaf A M => A.HasShape m p ∧ A.AppliesRightAs M
  | _, _, node l r => l.LeavesApply ∧ r.LeavesApply

end ProductTree

/-- The tree `unitD · (projA · projC)` over GF(3). -/
def treeDAC : ProductTree Unit (ZMod 3) Nat 2 2 :=
  ProductTree.node (ProductTree.leaf unitD (Matrix.diagonal ![(2 : ZMod 3), 1]))
    (ProductTree.node (ProductTree.leaf projA (Matrix.diagonal ![(1 : ZMod 3), 0]))
      (ProductTree.leaf projC (Matrix.diagonal ![(0 : ZMod 3), 1])))

/-! ## Auxiliary facts -/

namespace DenseMatrix

variable {K : Type}

theorem ofMatrix_rowdim {m n : Nat} (M : Matrix (Fin m) (Fin n) K) :
    (ofMatrix M).rowdim = m := rfl

theorem ofMatrix_coldim {m n : Nat} (M : Matrix (Fin m) (Fin n) K) :
    (ofMatrix M).coldim = n := rfl

theorem ofMatrix_get [Zero K] {m n : Nat} (M : Matrix (Fin m) (Fin n) K) (i : Fin m)
    (j : Fin n) : (ofMatrix M).get i.val j.val = M i j := by
  have h : i.val < (ofMatrix M).rowdim ∧ j.val < (ofMatrix M).coldim := ⟨i.isLt, j.isLt⟩
  unfold get
  rw [dif_pos h]
  rfl

theorem ofMatrix_injective {m n : Nat} {M M' : Matrix (Fin m) (Fin n) K}
    (h : ofMatrix M = ofMatrix M') : M = M' := by
  unfold ofMatrix at h
  cases h
  rfl

theorem mulTableLeft_ofMatrix [Field K] {n k : Nat} (M : Matrix (Fin n) (Fin n) K)
    (X : Matrix (Fin n) (Fin k) K) : (ofMatrix X).mulTableLeft M = ofMatrix (M * X) := by
  show (⟨n, k, _⟩ : DenseMatrix K) = ⟨n, k, _⟩
  congr 1
  funext i j
  simp only [Matrix.mul_apply, ofMatrix_get]

theorem mulTableRight_ofMatrix [Field K] {n k : Nat} (M : Matrix (Fin n) (Fin n) K)
    (X : Matrix (Fin k) (Fin n) K) : (ofMatrix X).mulTableRight M = ofMatrix (X * M) := by
  show (⟨k, n, _⟩ : DenseMatrix K) = ⟨k, n, _⟩
  congr 1
  funext i j
  simp only [Matrix.mul_apply, ofMatrix_get]

end DenseMatrix

section MatrixFacts

variable {K : Type} [Field K]

/-- A nonsingular square matrix has full rank. -/
theorem rank_eq_of_isUnit_det {n : Nat} (M : Matrix (Fin n) (Fin n) K) (h : IsUnit M.det) :
    M.rank = n := by
  have := Matrix.rank_of_isUnit M ((Matrix.isUnit_iff_isUnit_det M).mpr h)
  simpa using this

/-- A square matrix of full rank is nonsingular. -/
theorem isUnit_det_of_rank_eq {n : Nat} (M : Matrix (Fin n) (Fin n) K) (h : M.rank = n) :
    IsUnit M.det := by
  rw [← Matrix.isUnit_iff_isUnit_det, ← Matrix.mulVec_surjective_iff_isUnit]
  have hr : LinearMap.range M.mulVecLin = ⊤ := by
    apply Submodule.eq_top_of_finrank_eq
    rw [← Matrix.rank, h]
    simp
  intro v
  have hv : v ∈ LinearMap.range M.mulVecLin := by rw [hr]; trivial
  obtain ⟨w, hw⟩ := hv
  exact ⟨w, by simpa using hw⟩

/-- Left cancellation of a nonsingular matrix. -/
theorem mul_left_cancel_of_isUnit_det {n k : Nat} (M : Matrix (Fin n) (Fin n) K)
    (h : IsUnit M.det) {Z Z' : Matrix (Fin n) (Fin k) K} (e : M * Z = M * Z') : Z = Z' := by
  have := congrArg (fun T => M⁻¹ * T) e
  simpa [← Matrix.mul_assoc, Matrix.nonsing_inv_mul M h] using this

/-- Left cancellation of a nonsingular matrix acting on vectors. -/
theorem mulVec_left_cancel_of_isUnit_det {n : Nat} (M : Matrix (Fin n) (Fin n) K)
    (h : IsUnit M.det) {v w : Fin n → K} (e : M.mulVec v = M.mulVec w) : v = w := by
  have := congrArg (fun t => M⁻¹.mulVec t) e
  simpa [Matrix.mulVec_mulVec, Matrix.nonsing_inv_mul M h] using this

/-- Every system is consistent for a nonsingular matrix. -/
theorem exists_mul_eq_of_isUnit_det {n k : Nat} (M : Matrix (Fin n) (Fin n) K)
    (h : IsUnit M.det) (X : Matrix (Fin n) (Fin k) K) :
    ∃ Y0 : Matrix (Fin n) (Fin k) K, M * Y0 = X :=
  ⟨M⁻¹ * X, by rw [← Matrix.mul_assoc, Matrix.mul_nonsing_inv M h, Matrix.one_mul]⟩

/-- A matrix with a left inverse has full column rank. -/
theorem rank_eq_of_left_inverse {n k : Nat} (Z : Matrix (Fin n) (Fin k) K)
    (L : Matrix (Fin k) (Fin n) K) (h : L * Z = 1) : Z.rank = k := by
  apply le_antisymm (Matrix.rank_le_width Z)
  have h1 : (L * Z).rank ≤ Z.rank := Matrix.rank_mul_le_right L Z
  rw [h, Matrix.rank_one] at h1
  simpa using h1

/-- A matrix with a right inverse has full row rank. -/
theorem rank_eq_of_right_inverse {n k : Nat} (Z : Matrix (Fin k) (Fin n) K)
    (L : Matrix (Fin n) (Fin k) K) (h : Z * L = 1) : Z.rank = k := by
  apply le_antisymm (Matrix.rank_le_height Z)
  have h1 : (Z * L).rank ≤ Z.rank := Matrix.rank_mul_le_left Z L
  rw [h, Matrix.rank_one] at h1
  simpa using h1

/-- Certificates for a right nullspace basis: `MZ = 0`, a left inverse `L` of `Z`, and
`ZL = 1 - SM` for a matrix `S`. -/
theorem isRightNullspaceBasis_of_tables {n k : Nat} (M S : Matrix (Fin n) (Fin n) K)
    (Z : Matrix (Fin n) (Fin k) K) (L : Matrix (Fin k) (Fin n) K)
    (h0 : M * Z = 0) (h1 : L * Z = 1) (h2 : Z * L = 1 - S * M) :
    IsRightNullspaceBasis M Z := by
  refine ⟨h0, ?_, rank_eq_of_left_inverse Z L h1⟩
  intro x hx
  refine ⟨L.mulVec x, ?_⟩
  rw [Matrix.mulVec_mulVec, h2, Matrix.sub_mulVec, Matrix.one_mulVec, ← Matrix.mulVec_mulVec,
    hx, Matrix.mulVec_zero, sub_zero]

/-- Certificates for a left nullspace basis: `ZM = 0`, a right inverse `L` of `Z`, and
`LZ = 1 - MS` for a matrix `S`. -/
theorem isLeftNullspaceBasis_of_tables {n k : Nat} (M S : Matrix (Fin n) (Fin n) K)
    (Z : Matrix (Fin k) (Fin n) K) (L : Matrix (Fin n) (Fin k) K)
    (h0 : Z * M = 0) (h1 : Z * L = 1) (h2 : L * Z = 1 - M * S) :
    IsLeftNullspaceBasis M Z := by
  refine ⟨h0, ?_, rank_eq_of_right_inverse Z L h1⟩
  intro x hx
  refine ⟨Matrix.vecMul x L, ?_⟩
  rw [Matrix.vecMul_vecMul, h2, Matrix.vecMul_sub, Matrix.vecMul_one, ← Matrix.vecMul_vecMul,
    hx, Matrix.zero_vecMul, sub_zero]

end MatrixFacts

/-! ## The concrete blackboxes meet the contract -/

section Tables

variable {K : Type} [Field K]

theorem tableFIBB_contract {n kR kL : Nat} (tag : BBType) (M S : Matrix (Fin n) (Fin n) K)
    (r : Nat) (d : K) (ZR : Matrix (Fin n) (Fin kR) K) (ZL : Matrix (Fin kL) (Fin n) K)
    (hS : M * S * M = M) (hr : r = M.rank) (hd : d = M.det)
    (hR : IsRightNullspaceBasis M ZR) (hL : IsLeftNullspaceBasis M ZL) :
    (tableFIBB tag M S r d (DenseMatrix.ofMatrix ZR) (DenseMatrix.ofMatrix ZL)).Contract M where
  shape := ⟨rfl, rfl⟩
  applyRight := fun _ _ X _ _ => DenseMatrix.mulTableLeft_ofMatrix M X
  applyLeft := fun _ _ X _ _ => DenseMatrix.mulTableRight_ofMatrix M X
  rank := hr
  det := hd
  solveRight := by
    rintro k Y X - - ⟨Y0, rfl⟩
    refine ⟨S * (M * Y0), DenseMatrix.mulTableLeft_ofMatrix S _, ?_⟩
    rw [← Matrix.mul_assoc, ← Matrix.mul_assoc, hS]
  solveLeft := by
    rintro k Y X - - ⟨Y0, rfl⟩
    refine ⟨Y0 * M * S, DenseMatrix.mulTableRight_ofMatrix S _, ?_⟩
    rw [Matrix.mul_assoc, Matrix.mul_assoc, ← Matrix.mul_assoc M, hS]
  nullspaceRandomRight := by
    intro k N g _ hk
    subst hk
    refine ⟨(1 - S * M) * sampleAt g n N.coldim,
      DenseMatrix.mulTableLeft_ofMatrix _ _, ?_⟩
    rw [← Matrix.mul_assoc, Matrix.mul_sub, Matrix.mul_one, ← Matrix.mul_assoc, hS, sub_self,
      Matrix.zero_mul]
  nullspaceRandomLeft := by
    intro k N g hk _
    subst hk
    refine ⟨sampleAt g N.rowdim n * (1 - M * S),
      DenseMatrix.mulTableRight_ofMatrix _ _, ?_⟩
    rw [Matrix.mul_assoc, Matrix.sub_mul, Matrix.one_mul, Matrix.mul_assoc, ← Matrix.mul_assoc,
      hS, sub_self, Matrix.mul_zero]
  nullspaceBasisRight := fun _ => ⟨kR, ZR, rfl, hR⟩
  nullspaceBasisLeft := fun _ => ⟨kL, ZL, rfl, hL⟩

theorem rank_diag_one_zero : (Matrix.diagonal ![(1 : ZMod 3), 0]).rank = 1 := by
  rw [Matrix.rank_diagonal]
  decide

theorem rank_diag_zero_one : (Matrix.diagonal ![(0 : ZMod 3), 1]).rank = 1 := by
  rw [Matrix.rank_diagonal]
  decide

theorem rank_diag_two_one : (Matrix.diagonal ![(2 : ZMod 3), 1]).rank = 2 := by
  rw [Matrix.rank_diagonal]
  decide

theorem projA_contract : projA.Contract (Matrix.diagonal ![(1 : ZMod 3), 0]) :=
  tableFIBB_contract _ _ _ _ _ _ _ (by decide) rank_diag_one_zero.symm (by decide)
    (isRightNullspaceBasis_of_tables _ !![1, 0; 1, 0] _ !![2, 1] (by decide) (by decide)
      (by decide))
    (isLeftNullspaceBasis_of_tables _ !![1, 0; 1, 0] _ !![0; 1] (by decide) (by decide)
      (by decide))

theorem projB_contract : projB.Contract (Matrix.diagonal ![(1 : ZMod 3), 0]) :=
  tableFIBB_contract _ _ _ _ _ _ _ (by decide) rank_diag_one_zero.symm (by decide)
    (isRightNullspaceBasis_of_tables _ !![1, 1; 0, 0] _ !![0, 1] (by decide) (by decide)
      (by decide))
    (isLeftNullspaceBasis_of_tables _ !![1, 1; 0, 0] _ !![2; 1] (by decide) (by decide)
      (by decide))

theorem projC_contract : projC.Contract (Matrix.diagonal ![(0 : ZMod 3), 1]) :=
  tableFIBB_contract _ _ _ _ _ _ _ (by decide) rank_diag_zero_one.symm (by decide)
    (isRightNullspaceBasis_of_tables _ (Matrix.diagonal ![0, 1]) _ !![1, 0] (by decide)
      (by decide) (by decide))
    (isLeftNullspaceBasis_of_tables _ (Matrix.diagonal ![0, 1]) _ !![1; 0] (by decide)
      (by decide) (by decide))

theorem unitD_contract : unitD.Contract (Matrix.diagonal ![(2 : ZMod 3), 1]) :=
  tableFIBB_contract _ _ _ _ _ _ _ (by decide) rank_diag_two_one.symm (by decide)
    (isRightNullspaceBasis_of_tables _ (Matrix.diagonal ![2, 1]) _ 0 (by decide)
      (by decide) (by decide))
    (isLeftNullspaceBasis_of_tables _ (Matrix.diagonal ![2, 1]) _ 0 (by decide)
      (by decide) (by decide))

theorem isUnit_det_diag_two_one : IsUnit (Matrix.diagonal ![(2 : ZMod 3), 1]).det := by
  decide

theorem tableFIBB_applyRight {n k : Nat} (tag : BBType) (M S : Matrix (Fin n) (Fin n) K)
    (r : Nat) (d : K) (BR BL Y : DenseMatrix K) (X : Matrix (Fin n) (Fin k) K) :
    (tableFIBB tag M S r d BR BL).applyRight Y (DenseMatrix.ofMatrix X) =
      DenseMatrix.ofMatrix (M * X) :=
  DenseMatrix.mulTableLeft_ofMatrix M X

theorem tableFIBB_solveRight {n k : Nat} (tag : BBType) (M S : Matrix (Fin n) (Fin n) K)
    (r : Nat) (d : K) (BR BL Y : DenseMatrix K) (X : Matrix (Fin n) (Fin k) K) :
    (tableFIBB tag M S r d BR BL).solveRight Y (DenseMatrix.ofMatrix X) =
      DenseMatrix.ofMatrix (S * X) :=
  DenseMatrix.mulTableLeft_ofMatrix S X

end Tables

/-! ## The composite `FIBBProduct` -/

namespace FIBBProduct

variable {Φ K G : Type} [Field K]

/-- C1: for a two-operand product of `A` (`m × n`) and `B` (`n × p`), `applyRight(Y, X)`
returns `A.applyRight` applied to `B.applyRight(X1, X)`, the intermediate `X1` being
allocated with `B.rowdim` rows and as many columns as `X`; hence, when each factor applies
as multiplication by its matrix, the result on an input with `p` rows is `(MA * MB) * X`. -/
theorem applyRight_init (A B : FIBB Φ K G) {m n p : Nat}
    (MA : Matrix (Fin m) (Fin n) K) (MB : Matrix (Fin n) (Fin p) K)
    (_hA : A.HasShape m n) (hB : B.HasShape n p) :
    (∀ Y X : DenseMatrix K, (init A B).applyRight Y X =
        A.applyRight Y (B.applyRight (DenseMatrix.alloc B.rowdim X.coldim) X)) ∧
      (A.AppliesRightAs MA → B.AppliesRightAs MB →
        ∀ (k : Nat) (Y : DenseMatrix K) (X : Matrix (Fin p) (Fin k) K),
          Y.rowdim = m → Y.coldim = k →
            (init A B).applyRight Y (DenseMatrix.ofMatrix X) =
              DenseMatrix.ofMatrix ((MA * MB) * X)) := by
  refine ⟨fun _ _ => rfl, ?_⟩
  intro aA aB k Y X hYr hYc
  show A.applyRight Y (B.applyRight (DenseMatrix.alloc B.rowdim k) (DenseMatrix.ofMatrix X)) = _
  rw [aB k _ X hB.1 rfl, aA k Y _ hYr hYc, Matrix.mul_assoc]

/-- C1, at the product of `projA` and `unitD` over GF(3) and a `2 × 1` input. -/
theorem applyRight_init_witness :
    (projA.HasShape 2 2 ∧ unitD.HasShape 2 2) ∧
      (init projA unitD).applyRight (DenseMatrix.alloc 2 1) (DenseMatrix.ofMatrix !![1; 2]) =
        DenseMatrix.ofMatrix
          ((Matrix.diagonal ![(1 : ZMod 3), 0] * Matrix.diagonal ![(2 : ZMod 3), 1])
            * (!![1; 2] : Matrix (Fin 2) (Fin 1) (ZMod 3))) :=
  ⟨⟨projA_contract.shape, unitD_contract.shape⟩,
    (applyRight_init projA unitD _ _ projA_contract.shape unitD_contract.shape).2
      projA_contract.applyRight unitD_contract.applyRight 1 (DenseMatrix.alloc 2 1) !![1; 2]
      rfl rfl⟩

/-- C2: for square factors of equal order `n` whose `solveRight` meets the documented
contract, at least one of them nonsingular, and a right-hand side `X` consistent for
`MA * MB`, the composite `solveRight` is `B.solveRight(Y, A.solveRight(Z, X))` and its
result `Y` satisfies `MA * MB * Y = X`. -/
theorem solveRight_init (A B : FIBB Φ K G) {n : Nat} (MA MB : Matrix (Fin n) (Fin n) K)
    (hA : A.HasShape n n) (_hB : B.HasShape n n)
    (sA : A.SolvesRightAs MA) (sB : B.SolvesRightAs MB)
    (hns : IsUnit MA.det ∨ IsUnit MB.det)
    (k : Nat) (Y : DenseMatrix K) (X : Matrix (Fin n) (Fin k) K)
    (hYr : Y.rowdim = n) (hYc : Y.coldim = k)
    (hX : ∃ Y0 : Matrix (Fin n) (Fin k) K, MA * MB * Y0 = X) :
    (init A B).solveRight Y (DenseMatrix.ofMatrix X) =
        B.solveRight Y (A.solveRight (DenseMatrix.alloc A.coldim k) (DenseMatrix.ofMatrix X)) ∧
      ∃ Z : Matrix (Fin n) (Fin k) K,
        (init A B).solveRight Y (DenseMatrix.ofMatrix X) = DenseMatrix.ofMatrix Z ∧
          MA * MB * Z = X := by
  refine ⟨rfl, ?_⟩
  obtain ⟨Y0, hY0⟩ := hX
  obtain ⟨Z1, hZ1, hMZ1⟩ :=
    sA k (DenseMatrix.alloc A.coldim k) X hA.2 rfl ⟨MB * Y0, by rw [← Matrix.mul_assoc, hY0]⟩
  have hcons : ∃ Y1 : Matrix (Fin n) (Fin k) K, MB * Y1 = Z1 := by
    rcases hns with hu | hu
    · refine ⟨Y0, ?_⟩
      apply mul_left_cancel_of_isUnit_det MA hu
      rw [hMZ1, ← Matrix.mul_assoc, hY0]
    · exact exists_mul_eq_of_isUnit_det MB hu Z1
  obtain ⟨Z, hZ, hMZ⟩ := sB k Y Z1 hYr hYc hcons
  refine ⟨Z, ?_, ?_⟩
  · show B.solveRight Y (A.solveRight (DenseMatrix.alloc A.coldim k) (DenseMatrix.ofMatrix X)) = _
    rw [hZ1, hZ]
  · rw [Matrix.mul_assoc, hMZ, hMZ1]

/-- C2, at the singular `projA` times the nonsingular `unitD` and the consistent
right-hand side `(2, 0)`. -/
theorem solveRight_init_witness :
    (IsUnit (Matrix.diagonal ![(1 : ZMod 3), 0]).det ∨
        IsUnit (Matrix.diagonal ![(2 : ZMod 3), 1]).det) ∧
      (∃ Y0 : Matrix (Fin 2) (Fin 1) (ZMod 3),
        Matrix.diagonal ![(1 : ZMod 3), 0] * Matrix.diagonal ![(2 : ZMod 3), 1] * Y0
          = !![2; 0]) ∧
      ∃ Z : Matrix (Fin 2) (Fin 1) (ZMod 3),
        (init projA unitD).solveRight (DenseMatrix.alloc 2 1) (DenseMatrix.ofMatrix !![2; 0])
            = DenseMatrix.ofMatrix Z ∧
          Matrix.diagonal ![(1 : ZMod 3), 0] * Matrix.diagonal ![(2 : ZMod 3), 1] * Z
            = !![2; 0] :=
  ⟨Or.inr isUnit_det_diag_two_one, ⟨!![1; 0], by decide⟩,
    (solveRight_init projA unitD _ _ projA_contract.shape unitD_contract.shape
      projA_contract.solveRight unitD_contract.solveRight (Or.inr isUnit_det_diag_two_one)
      1 (DenseMatrix.alloc 2 1) !![2; 0] rfl rfl ⟨!![1; 0], by decide⟩).2⟩

/-- C3, as stated, fails: `projA` and `projB` both stand for the singular `diag(1, 0)` and
both meet the whole contract; `X = (1, 0)` is consistent for their product, yet solving and
applying again gives `(2, 0)`. The left factor returns the solution `(1, 1)` of its own
system, which is not in the range of the right factor. -/
theorem solveRight_roundTrip_counterexample :
    projA.Contract (Matrix.diagonal ![(1 : ZMod 3), 0]) ∧
      projB.Contract (Matrix.diagonal ![(1 : ZMod 3), 0]) ∧
      (init projA projB).applyRight (DenseMatrix.alloc 2 1) (DenseMatrix.ofMatrix !![1; 0]) =
        DenseMatrix.ofMatrix (!![1; 0] : Matrix (Fin 2) (Fin 1) (ZMod 3)) ∧
      (init projA projB).applyRight (DenseMatrix.alloc 2 1)
          ((init projA projB).solveRight (DenseMatrix.alloc 2 1) (DenseMatrix.ofMatrix !![1; 0])) =
        DenseMatrix.ofMatrix (!![2; 0] : Matrix (Fin 2) (Fin 1) (ZMod 3)) ∧
      (init projA projB).applyRight (DenseMatrix.alloc 2 1)
          ((init projA projB).solveRight (DenseMatrix.alloc 2 1) (DenseMatrix.ofMatrix !![1; 0])) ≠
        DenseMatrix.ofMatrix (!![1; 0] : Matrix (Fin 2) (Fin 1) (ZMod 3)) := by
  have hval : (init projA projB).applyRight (DenseMatrix.alloc 2 1)
      ((init projA projB).solveRight (DenseMatrix.alloc 2 1) (DenseMatrix.ofMatrix !![1; 0])) =
        DenseMatrix.ofMatrix (!![2; 0] : Matrix (Fin 2) (Fin 1) (ZMod 3)) := by
    simp only [init, applyRight, solveRight, projA, projB, tableFIBB_applyRight,
      tableFIBB_solveRight]
    exact congrArg DenseMatrix.ofMatrix (by decide)
  refine ⟨projA_contract, projB_contract, ?_, hval, ?_⟩
  · simp only [init, applyRight, projA, projB, tableFIBB_applyRight]
    exact congrArg DenseMatrix.ofMatrix (by decide)
  · rw [hval]
    intro h
    exact absurd (DenseMatrix.ofMatrix_injective h) (by decide)

/-- C3, amended: for square factors of equal order `n`, at least one of them nonsingular,
that apply as multiplication by their matrices and whose `solveRight` meets the documented
contract, and for every `X` consistent for the composite (some `Y0` has
`applyRight(Y0) = X`), `applyRight(solveRight(X)) = X`. -/
theorem solveRight_roundTrip (A B : FIBB Φ K G) {n : Nat} (MA MB : Matrix (Fin n) (Fin n) K)
    (hA : A.HasShape n n) (hB : B.HasShape n n)
    (aA : A.AppliesRightAs MA) (aB : B.AppliesRightAs MB)
    (sA : A.SolvesRightAs MA) (sB : B.SolvesRightAs MB)
    (hns : IsUnit MA.det ∨ IsUnit MB.det)
    (k : Nat) (Y W : DenseMatrix K) (X : Matrix (Fin n) (Fin k) K)
    (hYr : Y.rowdim = n) (hYc : Y.coldim = k) (hWr : W.rowdim = n) (hWc : W.coldim = k)
    (hX : ∃ Y0 : Matrix (Fin n) (Fin k) K,
      (init A B).applyRight W (DenseMatrix.ofMatrix Y0) = DenseMatrix.ofMatrix X) :
    (init A B).applyRight W ((init A B).solveRight Y (DenseMatrix.ofMatrix X)) =
      DenseMatrix.ofMatrix X := by
  have happ : ∀ T : Matrix (Fin n) (Fin k) K,
      (init A B).applyRight W (DenseMatrix.ofMatrix T) = DenseMatrix.ofMatrix (MA * MB * T) := by
    intro T
    show A.applyRight W (B.applyRight (DenseMatrix.alloc B.rowdim k) (DenseMatrix.ofMatrix T)) = _
    rw [aB k _ T hB.1 rfl, aA k W _ hWr hWc, Matrix.mul_assoc]
  obtain ⟨Y0, hY0⟩ := hX
  rw [happ Y0] at hY0
  have hY0 := DenseMatrix.ofMatrix_injective hY0
  obtain ⟨Z1, hZ1, hMZ1⟩ :=
    sA k (DenseMatrix.alloc A.coldim k) X hA.2 rfl ⟨MB * Y0, by rw [← Matrix.mul_assoc, hY0]⟩
  have hcons : ∃ Y1 : Matrix (Fin n) (Fin k) K, MB * Y1 = Z1 := by
    rcases hns with hu | hu
    · refine ⟨Y0, ?_⟩
      apply mul_left_cancel_of_isUnit_det MA hu
      rw [hMZ1, ← Matrix.mul_assoc, hY0]
    · exact exists_mul_eq_of_isUnit_det MB hu Z1
  obtain ⟨Z, hZ, hMZ⟩ := sB k Y Z1 hYr hYc hcons
  have hsolve : (init A B).solveRight Y (DenseMatrix.ofMatrix X) = DenseMatrix.ofMatrix Z := by
    show B.solveRight Y (A.solveRight (DenseMatrix.alloc A.coldim k) (DenseMatrix.ofMatrix X)) = _
    rw [hZ1, hZ]
  rw [hsolve, happ Z, Matrix.mul_assoc, hMZ, hMZ1]

/-- C3 amended, at the singular `projA` times the nonsingular `unitD` and the consistent
right-hand side `(2, 0)`. -/
theorem solveRight_roundTrip_witness :
    (IsUnit (Matrix.diagonal ![(1 : ZMod 3), 0]).det ∨
        IsUnit (Matrix.diagonal ![(2 : ZMod 3), 1]).det) ∧
      (∃ Y0 : Matrix (Fin 2) (Fin 1) (ZMod 3),
        (init projA unitD).applyRight (DenseMatrix.alloc 2 1) (DenseMatrix.ofMatrix Y0) =
          DenseMatrix.ofMatrix !![2; 0]) ∧
      (init projA unitD).applyRight (DenseMatrix.alloc 2 1)
          ((init projA unitD).solveRight (DenseMatrix.alloc 2 1)
            (DenseMatrix.ofMatrix (!![2; 0] : Matrix (Fin 2) (Fin 1) (ZMod 3)))) =
        DenseMatrix.ofMatrix (!![2; 0] : Matrix (Fin 2) (Fin 1) (ZMod 3)) := by
  have hX : ∃ Y0 : Matrix (Fin 2) (Fin 1) (ZMod 3),
      (init projA unitD).applyRight (DenseMatrix.alloc 2 1) (DenseMatrix.ofMatrix Y0) =
        DenseMatrix.ofMatrix !![2; 0] := by
    refine ⟨!![1; 0], ?_⟩
    simp only [init, applyRight, projA, unitD, tableFIBB_applyRight]
    exact congrArg DenseMatrix.ofMatrix (by decide)
  exact ⟨Or.inr isUnit_det_diag_two_one, hX,
    solveRight_roundTrip projA unitD _ _ projA_contract.shape unitD_contract.shape
      projA_contract.applyRight unitD_contract.applyRight
      projA_contract.solveRight unitD_contract.solveRight (Or.inr isUnit_det_diag_two_one)
      1 (DenseMatrix.alloc 2 1) (DenseMatrix.alloc 2 1) !![2; 0] rfl rfl rfl rfl hX⟩

/-- C4: for square factors of equal order `n`, at least one of them nonsingular, with `A`
reporting its true rank, both `nullspaceRandomRight` returning matrices annihilated by the
factor and `B.solveRight` solving consistent systems, every `N` returned by the composite
`nullspaceRandomRight` satisfies `MA * MB * N = 0`, whichever branch is taken. -/
theorem nullspaceRandomRight_init (A B : FIBB Φ K G) {n : Nat}
    (MA MB : Matrix (Fin n) (Fin n) K)
    (hA : A.HasShape n n) (_hB : B.HasShape n n)
    (hns : IsUnit MA.det ∨ IsUnit MB.det) (rA : A.RankIs MA)
    (nA : A.SamplesNullspaceRightOf MA) (nB : B.SamplesNullspaceRightOf MB)
    (sB : B.SolvesRightAs MB)
    (k : Nat) (N : DenseMatrix K) (g : G) (hNr : N.rowdim = n) (hNc : N.coldim = k) :
    ∃ Z : Matrix (Fin n) (Fin k) K,
      ((init A B).nullspaceRandomRight N g).1 = DenseMatrix.ofMatrix Z ∧ MA * MB * Z = 0 := by
  by_cases hfast : A.rowdim = A.coldim ∧ A.rank = A.coldim
  · obtain ⟨Z, hZ, hMZ⟩ := nB k N g hNr hNc
    refine ⟨Z, ?_, by rw [Matrix.mul_assoc, hMZ, Matrix.mul_zero]⟩
    have : (init A B).nullspaceRandomRight N g = B.nullspaceRandomRight N g := if_pos hfast
    rw [this, hZ]
  · have hsing : ¬ IsUnit MA.det := by
      intro hu
      apply hfast
      refine ⟨by rw [hA.1, hA.2], ?_⟩
      rw [rA, hA.2]
      exact rank_eq_of_isUnit_det MA hu
    have hu : IsUnit MB.det := hns.resolve_left hsing
    obtain ⟨Z1, hZ1, hMZ1⟩ := nA k N g hNr hNc
    obtain ⟨Z, hZ, hMZ⟩ := sB k N Z1 hNr hNc (exists_mul_eq_of_isUnit_det MB hu Z1)
    refine ⟨Z, ?_, by rw [Matrix.mul_assoc, hMZ, hMZ1]⟩
    have : (init A B).nullspaceRandomRight N g =
        (B.solveRight N (A.nullspaceRandomRight N g).1, (A.nullspaceRandomRight N g).2) :=
      if_neg hfast
    rw [this]
    show B.solveRight N (A.nullspaceRandomRight N g).1 = _
    rw [hZ1, hZ]

/-- C4, in both branches: `unitD` on the left takes the fast branch, `projA` on the left
takes the branch that solves. -/
theorem nullspaceRandomRight_init_witness :
    (∃ Z : Matrix (Fin 2) (Fin 1) (ZMod 3),
        ((init unitD projA).nullspaceRandomRight (DenseMatrix.alloc 2 1) 5).1 =
            DenseMatrix.ofMatrix Z ∧
          Matrix.diagonal ![(2 : ZMod 3), 1] * Matrix.diagonal ![(1 : ZMod 3), 0] * Z = 0) ∧
      ∃ Z : Matrix (Fin 2) (Fin 1) (ZMod 3),
        ((init projA unitD).nullspaceRandomRight (DenseMatrix.alloc 2 1) 5).1 =
            DenseMatrix.ofMatrix Z ∧
          Matrix.diagonal ![(1 : ZMod 3), 0] * Matrix.diagonal ![(2 : ZMod 3), 1] * Z = 0 :=
  ⟨nullspaceRandomRight_init unitD projA _ _ unitD_contract.shape projA_contract.shape
      (Or.inl isUnit_det_diag_two_one) unitD_contract.rank unitD_contract.nullspaceRandomRight
      projA_contract.nullspaceRandomRight projA_contract.solveRight 1 (DenseMatrix.alloc 2 1) 5
      rfl rfl,
    nullspaceRandomRight_init projA unitD _ _ projA_contract.shape unitD_contract.shape
      (Or.inr isUnit_det_diag_two_one) projA_contract.rank projA_contract.nullspaceRandomRight
      unitD_contract.nullspaceRandomRight unitD_contract.solveRight 1 (DenseMatrix.alloc 2 1) 5
      rfl rfl⟩

/-- The composite `nullspaceBasisRight` returns a basis of the right nullspace of the
product when at least one factor is nonsingular (shared by the statements below). -/
theorem nullspaceBasisRight_isBasis (A B : FIBB Φ K G) {n : Nat}
    (MA MB : Matrix (Fin n) (Fin n) K) (hA : A.HasShape n n)
    (hns : IsUnit MA.det ∨ IsUnit MB.det) (rA : A.RankIs MA)
    (bA : A.NullspaceBasisRightOf MA) (bB : B.NullspaceBasisRightOf MB)
    (sB : B.SolvesRightAs MB) (N : DenseMatrix K) :
    ∃ (k : Nat) (Z : Matrix (Fin n) (Fin k) K),
      (init A B).nullspaceBasisRight N = DenseMatrix.ofMatrix Z ∧
        IsRightNullspaceBasis (MA * MB) Z := by
  by_cases hfast : A.rowdim = A.coldim ∧ A.rank = A.rowdim
  · have hu : IsUnit MA.det := isUnit_det_of_rank_eq MA (by rw [← rA, hfast.2, hA.1])
    obtain ⟨k, Z, hZ, h0, hspan, hrank⟩ := bB N
    refine ⟨k, Z, ?_, ?_, ?_, hrank⟩
    · have : (init A B).nullspaceBasisRight N = B.nullspaceBasisRight N := if_pos hfast
      rw [this, hZ]
    · rw [Matrix.mul_assoc, h0, Matrix.mul_zero]
    · intro x hx
      apply hspan
      apply mulVec_left_cancel_of_isUnit_det MA hu
      rw [Matrix.mulVec_mulVec, hx, Matrix.mulVec_zero]
  · have hsing : ¬ IsUnit MA.det := by
      intro hu
      apply hfast
      refine ⟨by rw [hA.1, hA.2], ?_⟩
      rw [rA, hA.1]
      exact rank_eq_of_isUnit_det MA hu
    have hu : IsUnit MB.det := hns.resolve_left hsing
    obtain ⟨k, Z1, hZ1, h0, hspan, hrank⟩ := bA (DenseMatrix.alloc 0 0)
    obtain ⟨Z, hZ, hMZ⟩ :=
      sB k (N.resize n k) Z1 rfl rfl (exists_mul_eq_of_isUnit_det MB hu Z1)
    refine ⟨k, Z, ?_, ?_, ?_, ?_⟩
    · have : (init A B).nullspaceBasisRight N =
          B.solveRight
            (N.resize (A.nullspaceBasisRight (DenseMatrix.alloc 0 0)).rowdim
              (A.nullspaceBasisRight (DenseMatrix.alloc 0 0)).coldim)
            (A.nullspaceBasisRight (DenseMatrix.alloc 0 0)) := if_neg hfast
      rw [this, hZ1]
      exact hZ
    · rw [Matrix.mul_assoc, hMZ, h0]
    · intro x hx
      rw [← Matrix.mulVec_mulVec] at hx
      obtain ⟨y, hy⟩ := hspan _ hx
      refine ⟨y, mulVec_left_cancel_of_isUnit_det MB hu ?_⟩
      rw [Matrix.mulVec_mulVec, hMZ, hy]
    · rw [← Matrix.rank_mul_eq_right_of_isUnit_det MB Z hu, hMZ, hrank]

/-- C6: for square factors of equal order `n`, at least one of them nonsingular, with `A`
reporting its true rank, both `nullspaceBasisRight` meeting the documented contract and
`B.solveRight` solving consistent systems, the matrix `N` returned by the composite
`nullspaceBasisRight` is a basis of the right nullspace of `MA * MB`: `MA * MB * N = 0`,
every `x` with `MA * MB * x = 0` is `N * y` for some `y`, and `N` has full column rank. -/
theorem nullspaceBasisRight_init (A B : FIBB Φ K G) {n : Nat}
    (MA MB : Matrix (Fin n) (Fin n) K) (hA : A.HasShape n n) (_hB : B.HasShape n n)
    (hns : IsUnit MA.det ∨ IsUnit MB.det) (rA : A.RankIs MA)
    (bA : A.NullspaceBasisRightOf MA) (bB : B.NullspaceBasisRightOf MB)
    (sB : B.SolvesRightAs MB) (N : DenseMatrix K) :
    ∃ (k : Nat) (Z : Matrix (Fin n) (Fin k) K),
      (init A B).nullspaceBasisRight N = DenseMatrix.ofMatrix Z ∧
        (MA * MB * Z = 0 ∧
          (∀ x : Fin n → K, (MA * MB).mulVec x = 0 → ∃ y : Fin k → K, x = Z.mulVec y) ∧
          Z.rank = k) :=
  nullspaceBasisRight_isBasis A B MA MB hA hns rA bA bB sB N

/-- C6, in both branches: `unitD` on the left delegates to the basis of `projA`; `projA`
on the left has its basis solved through `unitD`. -/
theorem nullspaceBasisRight_init_witness :
    (∃ (k : Nat) (Z : Matrix (Fin 2) (Fin k) (ZMod 3)),
        (init unitD projA).nullspaceBasisRight (DenseMatrix.alloc 0 0) =
            DenseMatrix.ofMatrix Z ∧
          (Matrix.diagonal ![(2 : ZMod 3), 1] * Matrix.diagonal ![(1 : ZMod 3), 0] * Z = 0 ∧
            (∀ x : Fin 2 → ZMod 3,
              (Matrix.diagonal ![(2 : ZMod 3), 1] * Matrix.diagonal ![(1 : ZMod 3), 0]).mulVec x
                  = 0 →
                ∃ y : Fin k → ZMod 3, x = Z.mulVec y) ∧
            Z.rank = k)) ∧
      ∃ (k : Nat) (Z : Matrix (Fin 2) (Fin k) (ZMod 3)),
        (init projA unitD).nullspaceBasisRight (DenseMatrix.alloc 0 0) =
            DenseMatrix.ofMatrix Z ∧
          (Matrix.diagonal ![(1 : ZMod 3), 0] * Matrix.diagonal ![(2 : ZMod 3), 1] * Z = 0 ∧
            (∀ x : Fin 2 → ZMod 3,
              (Matrix.diagonal ![(1 : ZMod 3), 0] * Matrix.diagonal ![(2 : ZMod 3), 1]).mulVec x
                  = 0 →
                ∃ y : Fin k → ZMod 3, x = Z.mulVec y) ∧
            Z.rank = k) :=
  ⟨nullspaceBasisRight_init unitD projA _ _ unitD_contract.shape projA_contract.shape
      (Or.inl isUnit_det_diag_two_one) unitD_contract.rank unitD_contract.nullspaceBasisRight
      projA_contract.nullspaceBasisRight projA_contract.solveRight (DenseMatrix.alloc 0 0),
    nullspaceBasisRight_init projA unitD _ _ projA_contract.shape unitD_contract.shape
      (Or.inr isUnit_det_diag_two_one) projA_contract.rank projA_contract.nullspaceBasisRight
      unitD_contract.nullspaceBasisRight unitD_contract.solveRight (DenseMatrix.alloc 0 0)⟩

/-- C7, as stated, fails: `projA` stands for `diag(1, 0)` and `projC` for `diag(0, 1)`,
both singular and both meeting the whole contract. The composite takes the branch that
solves and returns the single column `(0, 1)`; the vector `(1, 0)` is mapped to zero by
the composite and is no multiple of that column. -/
theorem nullspaceBasisRight_spans_counterexample :
    projA.Contract (Matrix.diagonal ![(1 : ZMod 3), 0]) ∧
      projC.Contract (Matrix.diagonal ![(0 : ZMod 3), 1]) ∧
      (init projA projC).nullspaceBasisRight (DenseMatrix.alloc 0 0) =
        DenseMatrix.ofMatrix (!![0; 1] : Matrix (Fin 2) (Fin 1) (ZMod 3)) ∧
      (init projA projC).applyRight (DenseMatrix.alloc 2 1)
          (DenseMatrix.ofMatrix (!![1; 0] : Matrix (Fin 2) (Fin 1) (ZMod 3))) =
        DenseMatrix.ofMatrix (0 : Matrix (Fin 2) (Fin 1) (ZMod 3)) ∧
      ¬ ∃ y : Matrix (Fin 1) (Fin 1) (ZMod 3),
          (!![1; 0] : Matrix (Fin 2) (Fin 1) (ZMod 3)) =
            (!![0; 1] : Matrix (Fin 2) (Fin 1) (ZMod 3)) * y := by
  refine ⟨projA_contract, projC_contract, ?_, ?_, ?_⟩
  · have : (init projA projC).nullspaceBasisRight (DenseMatrix.alloc 0 0) =
        projC.solveRight ((DenseMatrix.alloc 0 0).resize 2 1)
          (DenseMatrix.ofMatrix (!![0; 1] : Matrix (Fin 2) (Fin 1) (ZMod 3))) :=
      if_neg (by decide)
    rw [this]
    simp only [projC, tableFIBB_solveRight]
    exact congrArg DenseMatrix.ofMatrix (by decide)
  · simp only [init, applyRight, projA, projC, tableFIBB_applyRight]
    exact congrArg DenseMatrix.ofMatrix (by decide)
  · decide

/-- C7, amended: for square factors of equal order `n`, at least one of them nonsingular,
that meet the documented contract, and for the matrix `N` returned by the composite
`nullspaceBasisRight`, every vector `x` with `applyRight(x) = 0` is a linear combination
of the columns of `N`. -/
theorem nullspaceBasisRight_spans (A B : FIBB Φ K G) {n : Nat}
    (MA MB : Matrix (Fin n) (Fin n) K) (hA : A.HasShape n n) (hB : B.HasShape n n)
    (hns : IsUnit MA.det ∨ IsUnit MB.det)
    (aA : A.AppliesRightAs MA) (aB : B.AppliesRightAs MB) (rA : A.RankIs MA)
    (bA : A.NullspaceBasisRightOf MA) (bB : B.NullspaceBasisRightOf MB)
    (sB : B.SolvesRightAs MB) (N W : DenseMatrix K) (hWr : W.rowdim = n)
    (hWc : W.coldim = 1) :
    ∃ (k : Nat) (Z : Matrix (Fin n) (Fin k) K),
      (init A B).nullspaceBasisRight N = DenseMatrix.ofMatrix Z ∧
        ∀ x : Matrix (Fin n) (Fin 1) K,
          (init A B).applyRight W (DenseMatrix.ofMatrix x) =
              DenseMatrix.ofMatrix (0 : Matrix (Fin n) (Fin 1) K) →
            ∃ y : Matrix (Fin k) (Fin 1) K, x = Z * y := by
  obtain ⟨k, Z, hZ, -, hspan, -⟩ := nullspaceBasisRight_isBasis A B MA MB hA hns rA bA bB sB N
  refine ⟨k, Z, hZ, ?_⟩
  intro x hx
  have happ : (init A B).applyRight W (DenseMatrix.ofMatrix x) =
      DenseMatrix.ofMatrix (MA * MB * x) := by
    show A.applyRight W (B.applyRight (DenseMatrix.alloc B.rowdim 1) (DenseMatrix.ofMatrix x)) = _
    rw [aB 1 _ x hB.1 rfl, aA 1 W _ hWr hWc, Matrix.mul_assoc]
  rw [happ] at hx
  have h0 : MA * MB * x = 0 := DenseMatrix.ofMatrix_injective hx
  have hv : (MA * MB).mulVec (fun i => x i 0) = 0 := by
    funext i
    have := congrFun (congrFun h0 i) 0
    simpa [Matrix.mul_apply, Matrix.mulVec, Matrix.dotProduct] using this
  obtain ⟨y, hy⟩ := hspan _ hv
  refine ⟨Matrix.of fun i _ => y i, ?_⟩
  ext i j
  have hj : j = 0 := Subsingleton.elim j 0
  subst hj
  have := congrFun hy i
  simpa [Matrix.mul_apply, Matrix.mulVec, Matrix.dotProduct] using this

/-- C7 amended, at the singular `projA` times the nonsingular `unitD`. -/
theorem nullspaceBasisRight_spans_witness :
    (IsUnit (Matrix.diagonal ![(1 : ZMod 3), 0]).det ∨
        IsUnit (Matrix.diagonal ![(2 : ZMod 3), 1]).det) ∧
      ∃ (k : Nat) (Z : Matrix (Fin 2) (Fin k) (ZMod 3)),
        (init projA unitD).nullspaceBasisRight (DenseMatrix.alloc 0 0) =
            DenseMatrix.ofMatrix Z ∧
          ∀ x : Matrix (Fin 2) (Fin 1) (ZMod 3),
            (init projA unitD).applyRight (DenseMatrix.alloc 2 1) (DenseMatrix.ofMatrix x) =
                DenseMatrix.ofMatrix (0 : Matrix (Fin 2) (Fin 1) (ZMod 3)) →
              ∃ y : Matrix (Fin k) (Fin 1) (ZMod 3), x = Z * y :=
  ⟨Or.inr isUnit_det_diag_two_one,
    nullspaceBasisRight_spans projA unitD _ _ projA_contract.shape unitD_contract.shape
      (Or.inr isUnit_det_diag_two_one) projA_contract.applyRight unitD_contract.applyRight
      projA_contract.rank projA_contract.nullspaceBasisRight unitD_contract.nullspaceBasisRight
      unitD_contract.solveRight (DenseMatrix.alloc 0 0) (DenseMatrix.alloc 2 1) rfl rfl⟩

/-- C8: the composite `det` is `A.det` multiplied in the field by `B.det`; hence for
square factors of equal order whose `det` members return the true determinants it is the
determinant of the matrix product `MA * MB`. -/
theorem det_init (A B : FIBB Φ K G) :
    (init A B).det = A.det * B.det ∧
      ∀ {n : Nat} (MA MB : Matrix (Fin n) (Fin n) K),
        A.HasShape n n → B.HasShape n n → A.DetIs MA → B.DetIs MB →
          (init A B).det = (MA * MB).det := by
  refine ⟨rfl, ?_⟩
  intro n MA MB _ _ dA dB
  show A.det * B.det = _
  rw [dA, dB, Matrix.det_mul]

/-- C8, at `unitD` times `projA`: the composite determinant is `2 * 0`. -/
theorem det_init_witness :
    (unitD.DetIs (Matrix.diagonal ![(2 : ZMod 3), 1]) ∧
        projA.DetIs (Matrix.diagonal ![(1 : ZMod 3), 0])) ∧
      (init unitD projA).det =
        (Matrix.diagonal ![(2 : ZMod 3), 1] * Matrix.diagonal ![(1 : ZMod 3), 0]).det :=
  ⟨⟨unitD_contract.det, projA_contract.det⟩,
    (det_init unitD projA).2 _ _ unitD_contract.shape projA_contract.shape unitD_contract.det
      projA_contract.det⟩

/-- C10: when `A` (`m × n`) and `B` (`n × p`) report their true ranks, the rank of the
matrix product `MA * MB` is at most the rank the composite reports. -/
theorem rank_mul_le_rank_init (A B : FIBB Φ K G) {m n p : Nat}
    (MA : Matrix (Fin m) (Fin n) K) (MB : Matrix (Fin n) (Fin p) K)
    (_hA : A.HasShape m n) (_hB : B.HasShape n p) (rA : A.RankIs MA) (rB : B.RankIs MB) :
    (MA * MB).rank ≤ (init A B).rank := by
  show (MA * MB).rank ≤ min A.rank B.rank
  rw [rA, rB]
  exact Matrix.rank_mul_le MA MB

/-- C10, at `projA` times `projC`: the product is the zero matrix, the composite
reports `min 1 1`. -/
theorem rank_mul_le_rank_init_witness :
    (projA.RankIs (Matrix.diagonal ![(1 : ZMod 3), 0]) ∧
        projC.RankIs (Matrix.diagonal ![(0 : ZMod 3), 1])) ∧
      (Matrix.diagonal ![(1 : ZMod 3), 0] * Matrix.diagonal ![(0 : ZMod 3), 1]).rank ≤
        (init projA projC).rank :=
  ⟨⟨projA_contract.rank, projC_contract.rank⟩,
    rank_mul_le_rank_init projA projC _ _ projA_contract.shape projC_contract.shape
      projA_contract.rank projC_contract.rank⟩

end FIBBProduct

/-! ## Dispatch facts that need no arithmetic -/

namespace FIBBProduct

variable {Φ K G : Type}

/-- C5: when `A` reports `rowdim = coldim` and `rank = coldim`, the composite
`nullspaceRandomRight(N)` returns exactly what `B.nullspaceRandomRight(N)` returns from the
same generator state, result and next state alike, and the outcome stays the same when
`A.nullspaceRandomRight` and `B.solveRight` are replaced by any other functions (neither is
invoked); in every other case it returns `B.solveRight(N, N1)` with `N1` the result of
`A.nullspaceRandomRight` on a copy of `N`. -/
theorem nullspaceRandomRight_dispatch (A B : FIBB Φ K G) (N : DenseMatrix K) (g : G) :
    ((A.rowdim = A.coldim ∧ A.rank = A.coldim) →
        (init A B).nullspaceRandomRight N g = B.nullspaceRandomRight N g ∧
          ∀ (f : DenseMatrix K → G → DenseMatrix K × G)
            (s : DenseMatrix K → DenseMatrix K → DenseMatrix K),
            (init { A with nullspaceRandomRight := f }
                { B with solveRight := s }).nullspaceRandomRight N g =
              B.nullspaceRandomRight N g) ∧
      (¬ (A.rowdim = A.coldim ∧ A.rank = A.coldim) →
        (init A B).nullspaceRandomRight N g =
          (B.solveRight N (A.nullspaceRandomRight N g).1, (A.nullspaceRandomRight N g).2)) := by
  refine ⟨fun h => ⟨if_pos h, fun f s => ?_⟩, fun h => if_neg h⟩
  exact if_pos (show A.rowdim = A.coldim ∧ A.rank = A.coldim from h)

/-- C5, in both cases: `unitD` on the left (square, full rank) delegates to `projA`;
`projA` on the left (rank 1 of 2) goes through `unitD.solveRight`. -/
theorem nullspaceRandomRight_dispatch_witness :
    ((unitD.rowdim = unitD.coldim ∧ unitD.rank = unitD.coldim) ∧
        (init unitD projA).nullspaceRandomRight (DenseMatrix.alloc 2 1) 5 =
          projA.nullspaceRandomRight (DenseMatrix.alloc 2 1) 5) ∧
      (¬ (projA.rowdim = projA.coldim ∧ projA.rank = projA.coldim) ∧
        (init projA unitD).nullspaceRandomRight (DenseMatrix.alloc 2 1) 5 =
          (unitD.solveRight (DenseMatrix.alloc 2 1)
              (projA.nullspaceRandomRight (DenseMatrix.alloc 2 1) 5).1,
            (projA.nullspaceRandomRight (DenseMatrix.alloc 2 1) 5).2)) :=
  ⟨⟨by decide,
      ((nullspaceRandomRight_dispatch unitD projA (DenseMatrix.alloc 2 1) 5).1 (by decide)).1⟩,
    ⟨by decide,
      (nullspaceRandomRight_dispatch projA unitD (DenseMatrix.alloc 2 1) 5).2 (by decide)⟩⟩

/-- C9: the composite `rank` returns `min(A.rank, B.rank)`. -/
theorem rank_init (A B : FIBB Φ K G) : (init A B).rank = min A.rank B.rank :=
  rfl

end FIBBProduct

/-! ## Rank of admitted products, left-hand operations -/

section MatrixFactsLeft

variable {K : Type} [Field K]

/-- Right cancellation of a nonsingular matrix. -/
theorem mul_right_cancel_of_isUnit_det {n k : Nat} (M : Matrix (Fin n) (Fin n) K)
    (h : IsUnit M.det) {Z Z' : Matrix (Fin k) (Fin n) K} (e : Z * M = Z' * M) : Z = Z' := by
  have := congrArg (fun T => T * M⁻¹) e
  simpa [Matrix.mul_assoc, Matrix.mul_nonsing_inv M h] using this

/-- Right cancellation of a nonsingular matrix acting on row vectors. -/
theorem vecMul_right_cancel_of_isUnit_det {n : Nat} (M : Matrix (Fin n) (Fin n) K)
    (h : IsUnit M.det) {v w : Fin n → K} (e : Matrix.vecMul v M = Matrix.vecMul w M) :
    v = w := by
  have := congrArg (fun t => Matrix.vecMul t M⁻¹) e
  simpa [Matrix.vecMul_vecMul, Matrix.mul_nonsing_inv M h] using this

/-- Every left system is consistent for a nonsingular matrix. -/
theorem exists_mul_eq_of_isUnit_det_left {n k : Nat} (M : Matrix (Fin n) (Fin n) K)
    (h : IsUnit M.det) (X : Matrix (Fin k) (Fin n) K) :
    ∃ Y0 : Matrix (Fin k) (Fin n) K, Y0 * M = X :=
  ⟨X * M⁻¹, by rw [Matrix.mul_assoc, Matrix.nonsing_inv_mul M h, Matrix.mul_one]⟩

/-- The rank of a product with a nonsingular factor is the smaller of the two ranks. -/
theorem rank_mul_eq_min_of_isUnit_det {n : Nat} (MA MB : Matrix (Fin n) (Fin n) K)
    (hns : IsUnit MA.det ∨ IsUnit MB.det) : (MA * MB).rank = min MA.rank MB.rank := by
  rcases hns with hu | hu
  · rw [Matrix.rank_mul_eq_right_of_isUnit_det MA MB hu, rank_eq_of_isUnit_det MA hu]
    exact (min_eq_right (Matrix.rank_le_width MB)).symm
  · rw [Matrix.rank_mul_eq_left_of_isUnit_det MB MA hu, rank_eq_of_isUnit_det MB hu]
    exact (min_eq_left (Matrix.rank_le_width MA)).symm

end MatrixFactsLeft

namespace FIBBProduct

variable {Φ K G : Type} [Field K]

/-- C11: for square factors of equal order that report their true ranks, at least one of
them nonsingular, the rank reported by the composite equals the rank of the matrix product
`MA * MB`. -/
theorem rank_init_exact (A B : FIBB Φ K G) {n : Nat} (MA MB : Matrix (Fin n) (Fin n) K)
    (_hA : A.HasShape n n) (_hB : B.HasShape n n) (rA : A.RankIs MA) (rB : B.RankIs MB)
    (hns : IsUnit MA.det ∨ IsUnit MB.det) : (init A B).rank = (MA * MB).rank := by
  show min A.rank B.rank = _
  rw [rA, rB, rank_mul_eq_min_of_isUnit_det MA MB hns]

/-- C11, at the nonsingular `unitD` times the singular `projA`. -/
theorem rank_init_exact_witness :
    (unitD.RankIs (Matrix.diagonal ![(2 : ZMod 3), 1]) ∧
        projA.RankIs (Matrix.diagonal ![(1 : ZMod 3), 0])) ∧
      (IsUnit (Matrix.diagonal ![(2 : ZMod 3), 1]).det ∨
        IsUnit (Matrix.diagonal ![(1 : ZMod 3), 0]).det) ∧
      (init unitD projA).rank =
        (Matrix.diagonal ![(2 : ZMod 3), 1] * Matrix.diagonal ![(1 : ZMod 3), 0]).rank :=
  ⟨⟨unitD_contract.rank, projA_contract.rank⟩, Or.inl isUnit_det_diag_two_one,
    rank_init_exact unitD projA _ _ unitD_contract.shape projA_contract.shape
      unitD_contract.rank projA_contract.rank (Or.inl isUnit_det_diag_two_one)⟩

/-- C12: for a two-operand product of `A` (`m × n`) and `B` (`n × p`), `applyLeft(Y, X)`
computes the intermediate `X1 = A.applyLeft(X1, X)`, allocated with as many rows as `X`
and `A.coldim` columns, and returns `B.applyLeft(Y, X1)`; hence, when each factor applies
on the left as right-multiplication by its matrix, the result on an input with `m` columns
is `X * (MA * MB)`. -/
theorem applyLeft_init (A B : FIBB Φ K G) {m n p : Nat}
    (MA : Matrix (Fin m) (Fin n) K) (MB : Matrix (Fin n) (Fin p) K)
    (hA : A.HasShape m n) (_hB : B.HasShape n p) :
    (∀ Y X : DenseMatrix K, (init A B).applyLeft Y X =
        B.applyLeft Y (A.applyLeft (DenseMatrix.alloc X.rowdim A.coldim) X)) ∧
      (A.AppliesLeftAs MA → B.AppliesLeftAs MB →
        ∀ (k : Nat) (Y : DenseMatrix K) (X : Matrix (Fin k) (Fin m) K),
          Y.rowdim = k → Y.coldim = p →
            (init A B).applyLeft Y (DenseMatrix.ofMatrix X) =
              DenseMatrix.ofMatrix (X * (MA * MB))) := by
  refine ⟨fun _ _ => rfl, ?_⟩
  intro aA aB k Y X hYr hYc
  show B.applyLeft Y (A.applyLeft (DenseMatrix.alloc k A.coldim) (DenseMatrix.ofMatrix X)) = _
  rw [aA k _ X rfl hA.2, aB k Y _ hYr hYc, Matrix.mul_assoc]

/-- C12, at the product of `projA` and `unitD` over GF(3) and a `1 × 2` input. -/
theorem applyLeft_init_witness :
    (projA.HasShape 2 2 ∧ unitD.HasShape 2 2) ∧
      (init projA unitD).applyLeft (DenseMatrix.alloc 1 2) (DenseMatrix.ofMatrix !![1, 2]) =
        DenseMatrix.ofMatrix
          ((!![1, 2] : Matrix (Fin 1) (Fin 2) (ZMod 3)) *
            (Matrix.diagonal ![(1 : ZMod 3), 0] * Matrix.diagonal ![(2 : ZMod 3), 1])) :=
  ⟨⟨projA_contract.shape, unitD_contract.shape⟩,
    (applyLeft_init projA unitD _ _ projA_contract.shape unitD_contract.shape).2
      projA_contract.applyLeft unitD_contract.applyLeft 1 (DenseMatrix.alloc 1 2) !![1, 2]
      rfl rfl⟩

/-- C13: for square factors of equal order `n` whose `solveLeft` meets the documented
contract, the composite `solveLeft` is `A.solveLeft(Y, B.solveLeft(Z, X))`, the right
factor being solved first; and when at least one factor is nonsingular and `X` is
consistent (`Y0 * MA * MB = X` for some `Y0`), the result `Y` satisfies
`Y * MA * MB = X`. -/
theorem solveLeft_init (A B : FIBB Φ K G) {n : Nat} (MA MB : Matrix (Fin n) (Fin n) K)
    (hA : A.HasShape n n) (_hB : B.HasShape n n)
    (sA : A.SolvesLeftAs MA) (sB : B.SolvesLeftAs MB)
    (k : Nat) (Y : DenseMatrix K) (X : Matrix (Fin k) (Fin n) K)
    (hYr : Y.rowdim = k) (hYc : Y.coldim = n) :
    (init A B).solveLeft Y (DenseMatrix.ofMatrix X) =
        A.solveLeft Y (B.solveLeft (DenseMatrix.alloc k A.coldim) (DenseMatrix.ofMatrix X)) ∧
      ((IsUnit MA.det ∨ IsUnit MB.det) →
        (∃ Y0 : Matrix (Fin k) (Fin n) K, Y0 * MA * MB = X) →
          ∃ Z : Matrix (Fin k) (Fin n) K,
            (init A B).solveLeft Y (DenseMatrix.ofMatrix X) = DenseMatrix.ofMatrix Z ∧
              Z * MA * MB = X) := by
  refine ⟨rfl, ?_⟩
  rintro hns ⟨Y0, hY0⟩
  obtain ⟨Z1, hZ1, hMZ1⟩ :=
    sB k (DenseMatrix.alloc k A.coldim) X rfl hA.2 ⟨Y0 * MA, hY0⟩
  have hcons : ∃ Y1 : Matrix (Fin k) (Fin n) K, Y1 * MA = Z1 := by
    rcases hns with hu | hu
    · exact exists_mul_eq_of_isUnit_det_left MA hu Z1
    · refine ⟨Y0, ?_⟩
      apply mul_right_cancel_of_isUnit_det MB hu
      rw [hMZ1, hY0]
  obtain ⟨Z, hZ, hMZ⟩ := sA k Y Z1 hYr hYc hcons
  refine ⟨Z, ?_, ?_⟩
  · show A.solveLeft Y (B.solveLeft (DenseMatrix.alloc k A.coldim) (DenseMatrix.ofMatrix X)) = _
    rw [hZ1, hZ]
  · rw [hMZ, hMZ1]

/-- C13, at the nonsingular `unitD` times the singular `projA` and the consistent
right-hand side `(2, 0)`. -/
theorem solveLeft_init_witness :
    (IsUnit (Matrix.diagonal ![(2 : ZMod 3), 1]).det ∨
        IsUnit (Matrix.diagonal ![(1 : ZMod 3), 0]).det) ∧
      (∃ Y0 : Matrix (Fin 1) (Fin 2) (ZMod 3),
        Y0 * Matrix.diagonal ![(2 : ZMod 3), 1] * Matrix.diagonal ![(1 : ZMod 3), 0]
          = !![2, 0]) ∧
      ∃ Z : Matrix (Fin 1) (Fin 2) (ZMod 3),
        (init unitD projA).solveLeft (DenseMatrix.alloc 1 2) (DenseMatrix.ofMatrix !![2, 0])
            = DenseMatrix.ofMatrix Z ∧
          Z * Matrix.diagonal ![(2 : ZMod 3), 1] * Matrix.diagonal ![(1 : ZMod 3), 0]
            = !![2, 0] :=
  ⟨Or.inl isUnit_det_diag_two_one, ⟨!![1, 0], by decide⟩,
    (solveLeft_init unitD projA _ _ unitD_contract.shape projA_contract.shape
      unitD_contract.solveLeft projA_contract.solveLeft
      1 (DenseMatrix.alloc 1 2) !![2, 0] rfl rfl).2 (Or.inl isUnit_det_diag_two_one)
      ⟨!![1, 0], by decide⟩⟩

/-- C14: for square factors of equal order `n`, at least one of them nonsingular, that
meet the documented contract, the composite `nullspaceRandomLeft` returns what
`A.nullspaceRandomLeft` returns when `B` reports `rowdim = coldim` and `rank = coldim`,
otherwise `A.solveLeft(N, N1)` with `N1` the result of `B.nullspaceRandomLeft` on a copy
of `N`; in both branches the result `N` satisfies `N * MA * MB = 0`. -/
theorem nullspaceRandomLeft_init (A B : FIBB Φ K G) {n : Nat}
    (MA MB : Matrix (Fin n) (Fin n) K)
    (_hA : A.HasShape n n) (hB : B.HasShape n n)
    (hns : IsUnit MA.det ∨ IsUnit MB.det) (rB : B.RankIs MB)
    (nA : A.SamplesNullspaceLeftOf MA) (nB : B.SamplesNullspaceLeftOf MB)
    (sA : A.SolvesLeftAs MA)
    (k : Nat) (N : DenseMatrix K) (g : G) (hNr : N.rowdim = k) (hNc : N.coldim = n) :
    ((B.rowdim = B.coldim ∧ B.rank = B.coldim) →
        (init A B).nullspaceRandomLeft N g = A.nullspaceRandomLeft N g) ∧
      (¬ (B.rowdim = B.coldim ∧ B.rank = B.coldim) →
        (init A B).nullspaceRandomLeft N g =
          (A.solveLeft N (B.nullspaceRandomLeft N g).1, (B.nullspaceRandomLeft N g).2)) ∧
      ∃ Z : Matrix (Fin k) (Fin n) K,
        ((init A B).nullspaceRandomLeft N g).1 = DenseMatrix.ofMatrix Z ∧
          Z * MA * MB = 0 := by
  refine ⟨fun h => if_pos h, fun h => if_neg h, ?_⟩
  by_cases hfast : B.rowdim = B.coldim ∧ B.rank = B.coldim
  · obtain ⟨Z, hZ, hMZ⟩ := nA k N g hNr hNc
    refine ⟨Z, ?_, by rw [hMZ, Matrix.zero_mul]⟩
    have : (init A B).nullspaceRandomLeft N g = A.nullspaceRandomLeft N g := if_pos hfast
    rw [this, hZ]
  · have hsing : ¬ IsUnit MB.det := by
      intro hu
      apply hfast
      refine ⟨by rw [hB.1, hB.2], ?_⟩
      rw [rB, hB.2]
      exact rank_eq_of_isUnit_det MB hu
    have hu : IsUnit MA.det := hns.resolve_right hsing
    obtain ⟨Z1, hZ1, hMZ1⟩ := nB k N g hNr hNc
    obtain ⟨Z, hZ, hMZ⟩ := sA k N Z1 hNr hNc (exists_mul_eq_of_isUnit_det_left MA hu Z1)
    refine ⟨Z, ?_, by rw [hMZ, hMZ1]⟩
    have : (init A B).nullspaceRandomLeft N g =
        (A.solveLeft N (B.nullspaceRandomLeft N g).1, (B.nullspaceRandomLeft N g).2) :=
      if_neg hfast
    rw [this]
    show A.solveLeft N (B.nullspaceRandomLeft N g).1 = _
    rw [hZ1, hZ]

/-- C14, in both branches: `unitD` on the right delegates to `projA`; `projA` on the
right goes through `unitD.solveLeft`. -/
theorem nullspaceRandomLeft_init_witness :
    ((unitD.rowdim = unitD.coldim ∧ unitD.rank = unitD.coldim) ∧
        ∃ Z : Matrix (Fin 1) (Fin 2) (ZMod 3),
          ((init projA unitD).nullspaceRandomLeft (DenseMatrix.alloc 1 2) 5).1 =
              DenseMatrix.ofMatrix Z ∧
            Z * Matrix.diagonal ![(1 : ZMod 3), 0] * Matrix.diagonal ![(2 : ZMod 3), 1] = 0) ∧
      (¬ (projA.rowdim = projA.coldim ∧ projA.rank = projA.coldim) ∧
        ∃ Z : Matrix (Fin 1) (Fin 2) (ZMod 3),
          ((init unitD projA).nullspaceRandomLeft (DenseMatrix.alloc 1 2) 5).1 =
              DenseMatrix.ofMatrix Z ∧
            Z * Matrix.diagonal ![(2 : ZMod 3), 1] * Matrix.diagonal ![(1 : ZMod 3), 0] = 0) :=
  ⟨⟨by decide,
      (nullspaceRandomLeft_init projA unitD _ _ projA_contract.shape unitD_contract.shape
        (Or.inr isUnit_det_diag_two_one) unitD_contract.rank
        projA_contract.nullspaceRandomLeft unitD_contract.nullspaceRandomLeft
        projA_contract.solveLeft 1 (DenseMatrix.alloc 1 2) 5 rfl rfl).2.2⟩,
    ⟨by decide,
      (nullspaceRandomLeft_init unitD projA _ _ unitD_contract.shape projA_contract.shape
        (Or.inl isUnit_det_diag_two_one) projA_contract.rank
        unitD_contract.nullspaceRandomLeft projA_contract.nullspaceRandomLeft
        unitD_contract.solveLeft 1 (DenseMatrix.alloc 1 2) 5 rfl rfl).2.2⟩⟩

/-- C15: for square factors of equal order `n`, at least one of them nonsingular, with `B`
reporting its true rank, both `nullspaceBasisLeft` meeting the documented contract and
`A.solveLeft` solving consistent systems, the matrix `N` returned by the composite
`nullspaceBasisLeft` is a row basis of the left nullspace of `MA * MB`:
`N * MA * MB = 0`, every `x` with `x * MA * MB = 0` is `y * N` for some `y`, and `N` has
full row rank. -/
theorem nullspaceBasisLeft_init (A B : FIBB Φ K G) {n : Nat}
    (MA MB : Matrix (Fin n) (Fin n) K) (_hA : A.HasShape n n) (hB : B.HasShape n n)
    (hns : IsUnit MA.det ∨ IsUnit MB.det) (rB : B.RankIs MB)
    (bA : A.NullspaceBasisLeftOf MA) (bB : B.NullspaceBasisLeftOf MB)
    (sA : A.SolvesLeftAs MA) (N : DenseMatrix K) :
    ∃ (k : Nat) (Z : Matrix (Fin k) (Fin n) K),
      (init A B).nullspaceBasisLeft N = DenseMatrix.ofMatrix Z ∧
        (Z * MA * MB = 0 ∧
          (∀ x : Fin n → K, Matrix.vecMul x (MA * MB) = 0 →
            ∃ y : Fin k → K, x = Matrix.vecMul y Z) ∧
          Z.rank = k) := by
  by_cases hfast : B.rowdim = B.coldim ∧ B.rank = B.rowdim
  · have hu : IsUnit MB.det := isUnit_det_of_rank_eq MB (by rw [← rB, hfast.2, hB.1])
    obtain ⟨k, Z, hZ, h0, hspan, hrank⟩ := bA N
    refine ⟨k, Z, ?_, ?_, ?_, hrank⟩
    · have : (init A B).nullspaceBasisLeft N = A.nullspaceBasisLeft N := if_pos hfast
      rw [this, hZ]
    · rw [h0, Matrix.zero_mul]
    · intro x hx
      apply hspan
      apply vecMul_right_cancel_of_isUnit_det MB hu
      rw [Matrix.vecMul_vecMul, hx, Matrix.zero_vecMul]
  · have hsing : ¬ IsUnit MB.det := by
      intro hu
      apply hfast
      refine ⟨by rw [hB.1, hB.2], ?_⟩
      rw [rB, hB.1]
      exact rank_eq_of_isUnit_det MB hu
    have hu : IsUnit MA.det := hns.resolve_right hsing
    obtain ⟨k, Z1, hZ1, h0, hspan, hrank⟩ := bB (DenseMatrix.alloc 0 0)
    obtain ⟨Z, hZ, hMZ⟩ :=
      sA k (N.resize k n) Z1 rfl rfl (exists_mul_eq_of_isUnit_det_left MA hu Z1)
    refine ⟨k, Z, ?_, ?_, ?_, ?_⟩
    · have : (init A B).nullspaceBasisLeft N =
          A.solveLeft
            (N.resize (B.nullspaceBasisLeft (DenseMatrix.alloc 0 0)).rowdim
              (B.nullspaceBasisLeft (DenseMatrix.alloc 0 0)).coldim)
            (B.nullspaceBasisLeft (DenseMatrix.alloc 0 0)) := if_neg hfast
      rw [this, hZ1]
      exact hZ
    · rw [hMZ, h0]
    · intro x hx
      rw [← Matrix.vecMul_vecMul] at hx
      obtain ⟨y, hy⟩ := hspan _ hx
      refine ⟨y, vecMul_right_cancel_of_isUnit_det MA hu ?_⟩
      rw [Matrix.vecMul_vecMul, hMZ, hy]
    · rw [← Matrix.rank_mul_eq_left_of_isUnit_det MA Z hu, hMZ, hrank]

/-- C15, in both branches: `unitD` on the right delegates to the row basis of `projA`;
`projA` on the right has its row basis solved through `unitD`. -/
theorem nullspaceBasisLeft_init_witness :
    (∃ (k : Nat) (Z : Matrix (Fin k) (Fin 2) (ZMod 3)),
        (init projA unitD).nullspaceBasisLeft (DenseMatrix.alloc 0 0) =
            DenseMatrix.ofMatrix Z ∧
          (Z * Matrix.diagonal ![(1 : ZMod 3), 0] * Matrix.diagonal ![(2 : ZMod 3), 1] = 0 ∧
            (∀ x : Fin 2 → ZMod 3,
              Matrix.vecMul x
                  (Matrix.diagonal ![(1 : ZMod 3), 0] * Matrix.diagonal ![(2 : ZMod 3), 1])
                  = 0 →
                ∃ y : Fin k → ZMod 3, x = Matrix.vecMul y Z) ∧
            Z.rank = k)) ∧
      ∃ (k : Nat) (Z : Matrix (Fin k) (Fin 2) (ZMod 3)),
        (init unitD projA).nullspaceBasisLeft (DenseMatrix.alloc 0 0) =
            DenseMatrix.ofMatrix Z ∧
          (Z * Matrix.diagonal ![(2 : ZMod 3), 1] * Matrix.diagonal ![(1 : ZMod 3), 0] = 0 ∧
            (∀ x : Fin 2 → ZMod 3,
              Matrix.vecMul x
                  (Matrix.diagonal ![(2 : ZMod 3), 1] * Matrix.diagonal ![(1 : ZMod 3), 0])
                  = 0 →
                ∃ y : Fin k → ZMod 3, x = Matrix.vecMul y Z) ∧
            Z.rank = k) :=
  ⟨nullspaceBasisLeft_init projA unitD _ _ projA_contract.shape unitD_contract.shape
      (Or.inr isUnit_det_diag_two_one) unitD_contract.rank projA_contract.nullspaceBasisLeft
      unitD_contract.nullspaceBasisLeft projA_contract.solveLeft (DenseMatrix.alloc 0 0),
    nullspaceBasisLeft_init unitD projA _ _ unitD_contract.shape projA_contract.shape
      (Or.inl isUnit_det_diag_two_one) projA_contract.rank unitD_contract.nullspaceBasisLeft
      projA_contract.nullspaceBasisLeft unitD_contract.solveLeft (DenseMatrix.alloc 0 0)⟩

end FIBBProduct

/-! ## The generic nullspace fallback -/

section Generic

variable {Φ K G : Type} [Field K]

theorem DenseMatrix.subin_ofMatrix {n k : Nat} (Z X : Matrix (Fin n) (Fin k) K) :
    DenseMatrix.subin (DenseMatrix.ofMatrix Z) (DenseMatrix.ofMatrix X) =
      DenseMatrix.ofMatrix (Z - X) := by
  show (⟨n, k, _⟩ : DenseMatrix K) = ⟨n, k, _⟩
  congr 1
  funext i j
  show Z i j - (DenseMatrix.ofMatrix X).get i.val j.val = (Z - X) i j
  rw [DenseMatrix.ofMatrix_get]
  rfl

/-- The generic fallback step by step, for a blackbox that applies as `M` and solves
consistent systems of `M`, when the random fill produced `X` (shared by the statements
below). -/
theorem genericNullspaceRandomRight_eq (random : DenseMatrix K → G → DenseMatrix K × G)
    (A : FIBB Φ K G) {n k : Nat} (M : Matrix (Fin n) (Fin n) K)
    (hA : A.HasShape n n) (aA : A.AppliesRightAs M) (sA : A.SolvesRightAs M)
    (N : DenseMatrix K) (g : G) (hNr : N.rowdim = n) (hNc : N.coldim = k)
    (X : Matrix (Fin n) (Fin k) K)
    (hX : (random (DenseMatrix.alloc N.rowdim N.coldim) g).1 = DenseMatrix.ofMatrix X) :
    ∃ Z : Matrix (Fin n) (Fin k) K,
      A.solveRight N (DenseMatrix.ofMatrix (M * X)) = DenseMatrix.ofMatrix Z ∧
        M * Z = M * X ∧
        (genericNullspaceRandomRight random N A g).1 = DenseMatrix.ofMatrix (Z - X) := by
  obtain ⟨Z, hZ, hMZ⟩ := sA k N (M * X) hNr hNc ⟨X, rfl⟩
  refine ⟨Z, hZ, hMZ, ?_⟩
  show DenseMatrix.subin
      (A.solveRight N
        (A.applyRight (DenseMatrix.alloc A.rowdim N.coldim)
          (random (DenseMatrix.alloc N.rowdim N.coldim) g).1))
      (random (DenseMatrix.alloc N.rowdim N.coldim) g).1 = _
  rw [hX, aA k (DenseMatrix.alloc A.rowdim N.coldim) X hA.1 hNc, hZ, DenseMatrix.subin_ofMatrix]

/-- C16: for a square blackbox `A` of order `n` that applies as multiplication by `M` and
whose `solveRight` returns a solution of every consistent system, and for every random
sample `X` of the shape of `N`, `genericNullspaceRandomRight(N, A)` returns `N' - X` where
`N'` is what `A.solveRight` returned for the right-hand side `A.applyRight(X)`, with
`M * N' = M * X`; so `M * N = 0`. -/
theorem genericNullspaceRandomRight_annihilates
    (random : DenseMatrix K → G → DenseMatrix K × G)
    (A : FIBB Φ K G) {n k : Nat} (M : Matrix (Fin n) (Fin n) K)
    (hA : A.HasShape n n) (aA : A.AppliesRightAs M) (sA : A.SolvesRightAs M)
    (N : DenseMatrix K) (g : G) (hNr : N.rowdim = n) (hNc : N.coldim = k)
    (X : Matrix (Fin n) (Fin k) K)
    (hX : (random (DenseMatrix.alloc N.rowdim N.coldim) g).1 = DenseMatrix.ofMatrix X) :
    ∃ Z : Matrix (Fin n) (Fin k) K,
      A.solveRight N
          (A.applyRight (DenseMatrix.alloc A.rowdim N.coldim) (DenseMatrix.ofMatrix X)) =
        DenseMatrix.ofMatrix Z ∧
      M * Z = M * X ∧
      (genericNullspaceRandomRight random N A g).1 = DenseMatrix.ofMatrix (Z - X) ∧
      M * (Z - X) = 0 := by
  obtain ⟨Z, hZ, hMZ, hout⟩ := genericNullspaceRandomRight_eq random A M hA aA sA N g hNr hNc X hX
  refine ⟨Z, ?_, hMZ, hout, by rw [Matrix.mul_sub, hMZ, sub_self]⟩
  rw [aA k (DenseMatrix.alloc A.rowdim N.coldim) X hA.1 hNc, hZ]

/-- C16, at the singular `projA`, the buffer `2 × 1` and the fill of generator state 5. -/
theorem genericNullspaceRandomRight_annihilates_witness :
    (fillAt (DenseMatrix.alloc (DenseMatrix.alloc 2 1 : DenseMatrix (ZMod 3)).rowdim
        (DenseMatrix.alloc 2 1 : DenseMatrix (ZMod 3)).coldim) 5).1 =
        DenseMatrix.ofMatrix (sampleAt 5 2 1 : Matrix (Fin 2) (Fin 1) (ZMod 3)) ∧
      ∃ Z : Matrix (Fin 2) (Fin 1) (ZMod 3),
        projA.solveRight (DenseMatrix.alloc 2 1)
            (projA.applyRight (DenseMatrix.alloc projA.rowdim 1)
              (DenseMatrix.ofMatrix (sampleAt 5 2 1))) =
          DenseMatrix.ofMatrix Z ∧
        Matrix.diagonal ![(1 : ZMod 3), 0] * Z =
          Matrix.diagonal ![(1 : ZMod 3), 0] * sampleAt 5 2 1 ∧
        (genericNullspaceRandomRight fillAt (DenseMatrix.alloc 2 1) projA 5).1 =
          DenseMatrix.ofMatrix (Z - sampleAt 5 2 1) ∧
        Matrix.diagonal ![(1 : ZMod 3), 0] * (Z - sampleAt 5 2 1) = 0 :=
  ⟨rfl,
    genericNullspaceRandomRight_annihilates fillAt projA _ projA_contract.shape
      projA_contract.applyRight projA_contract.solveRight (DenseMatrix.alloc 2 1) 5 rfl rfl
      (sampleAt 5 2 1) rfl⟩

/-- Every nullspace matrix is reached by the generic fallback for a suitable sample
(shared by the statements below). -/
theorem genericNullspaceRandomRight_reaches (A : FIBB Φ K G) {n k : Nat}
    (M : Matrix (Fin n) (Fin n) K)
    (hA : A.HasShape n n) (aA : A.AppliesRightAs M) (sA : A.SolvesRightAs M)
    (N : DenseMatrix K) (hNr : N.rowdim = n) (hNc : N.coldim = k)
    (V : Matrix (Fin n) (Fin k) K) (hV : M * V = 0) :
    ∃ X : Matrix (Fin n) (Fin k) K,
      ∀ (random : DenseMatrix K → G → DenseMatrix K × G) (g : G),
        (random (DenseMatrix.alloc N.rowdim N.coldim) g).1 = DenseMatrix.ofMatrix X →
          (genericNullspaceRandomRight random N A g).1 = DenseMatrix.ofMatrix V := by
  obtain ⟨Z0, hZ0, hMZ0⟩ := sA k N 0 hNr hNc ⟨0, Matrix.mul_zero M⟩
  refine ⟨Z0 - V, ?_⟩
  intro random g hX
  have hMX : M * (Z0 - V) = 0 := by rw [Matrix.mul_sub, hMZ0, hV, sub_self]
  obtain ⟨Z, hZ, -, hout⟩ :=
    genericNullspaceRandomRight_eq random A M hA aA sA N g hNr hNc (Z0 - V) hX
  rw [hMX, hZ0] at hZ
  have hZZ : Z0 = Z := DenseMatrix.ofMatrix_injective hZ
  rw [hout, ← hZZ, sub_sub_cancel]

/-- C17: for a square blackbox `A` of order `n` that applies as multiplication by `M` and
whose `solveRight` (a function of its arguments) returns a solution of every consistent
system, every matrix `V` of the shape of `N` with `M * V = 0` is the output of
`genericNullspaceRandomRight(N, A)` for some value `X` of the random sample. -/
theorem genericNullspaceRandomRight_covers (A : FIBB Φ K G) {n k : Nat}
    (M : Matrix (Fin n) (Fin n) K)
    (hA : A.HasShape n n) (aA : A.AppliesRightAs M) (sA : A.SolvesRightAs M)
    (N : DenseMatrix K) (hNr : N.rowdim = n) (hNc : N.coldim = k)
    (V : Matrix (Fin n) (Fin k) K) (hV : M * V = 0) :
    ∃ X : Matrix (Fin n) (Fin k) K,
      ∀ (random : DenseMatrix K → G → DenseMatrix K × G) (g : G),
        (random (DenseMatrix.alloc N.rowdim N.coldim) g).1 = DenseMatrix.ofMatrix X →
          (genericNullspaceRandomRight random N A g).1 = DenseMatrix.ofMatrix V :=
  genericNullspaceRandomRight_reaches A M hA aA sA N hNr hNc V hV

/-- C17, at the singular `projC` and the nullspace vector `(1, 0)`. -/
theorem genericNullspaceRandomRight_covers_witness :
    Matrix.diagonal ![(0 : ZMod 3), 1] * (!![1; 0] : Matrix (Fin 2) (Fin 1) (ZMod 3)) = 0 ∧
      ∃ X : Matrix (Fin 2) (Fin 1) (ZMod 3),
        ∀ (random : DenseMatrix (ZMod 3) → Nat → DenseMatrix (ZMod 3) × Nat) (g : Nat),
          (random (DenseMatrix.alloc (DenseMatrix.alloc 2 1 : DenseMatrix (ZMod 3)).rowdim
              (DenseMatrix.alloc 2 1 : DenseMatrix (ZMod 3)).coldim) g).1 =
              DenseMatrix.ofMatrix X →
            (genericNullspaceRandomRight random (DenseMatrix.alloc 2 1) projC g).1 =
              DenseMatrix.ofMatrix (!![1; 0] : Matrix (Fin 2) (Fin 1) (ZMod 3)) :=
  ⟨by decide,
    genericNullspaceRandomRight_covers projC _ projC_contract.shape projC_contract.applyRight
      projC_contract.solveRight (DenseMatrix.alloc 2 1) rfl rfl !![1; 0] (by decide)⟩

end Generic

/-! ## The composite as a blackbox of its own -/

namespace FIBBProduct

variable {Φ K G : Type} [Field K]

/-- A product of blackboxes that apply as `MA` and `MB` applies as `MA * MB`. -/
theorem toFIBB_appliesRightAs (A B : FIBB Φ K G) {m n p : Nat}
    (MA : Matrix (Fin m) (Fin n) K) (MB : Matrix (Fin n) (Fin p) K)
    (hBr : B.rowdim = n) (aA : A.AppliesRightAs MA) (aB : B.AppliesRightAs MB) :
    (init A B).toFIBB.AppliesRightAs (MA * MB) := by
  intro k Y X hYr hYc
  show A.applyRight Y (B.applyRight (DenseMatrix.alloc B.rowdim k) (DenseMatrix.ofMatrix X)) = _
  rw [aB k _ X hBr rfl, aA k Y _ hYr hYc, Matrix.mul_assoc]

/-- A product of square blackboxes, one of them nonsingular, solves the consistent systems
of `MA * MB`. -/
theorem toFIBB_solvesRightAs (A B : FIBB Φ K G) {n : Nat} (MA MB : Matrix (Fin n) (Fin n) K)
    (hAc : A.coldim = n) (sA : A.SolvesRightAs MA) (sB : B.SolvesRightAs MB)
    (hns : IsUnit MA.det ∨ IsUnit MB.det) :
    (init A B).toFIBB.SolvesRightAs (MA * MB) := by
  rintro k Y X hYr hYc ⟨Y0, hY0⟩
  obtain ⟨Z1, hZ1, hMZ1⟩ :=
    sA k (DenseMatrix.alloc A.coldim k) X hAc rfl ⟨MB * Y0, by rw [← Matrix.mul_assoc, hY0]⟩
  have hcons : ∃ Y1 : Matrix (Fin n) (Fin k) K, MB * Y1 = Z1 := by
    rcases hns with hu | hu
    · refine ⟨Y0, ?_⟩
      apply mul_left_cancel_of_isUnit_det MA hu
      rw [hMZ1, ← Matrix.mul_assoc, hY0]
    · exact exists_mul_eq_of_isUnit_det MB hu Z1
  obtain ⟨Z, hZ, hMZ⟩ := sB k Y Z1 hYr hYc hcons
  refine ⟨Z, ?_, by rw [Matrix.mul_assoc, hMZ, hMZ1]⟩
  show B.solveRight Y (A.solveRight (DenseMatrix.alloc A.coldim k) (DenseMatrix.ofMatrix X)) = _
  rw [hZ1, hZ]

/-- A product of square blackboxes, one of them nonsingular, samples the right nullspace
of `MA * MB`. -/
theorem toFIBB_samplesNullspaceRightOf (A B : FIBB Φ K G) {n : Nat}
    (MA MB : Matrix (Fin n) (Fin n) K) (hA : A.HasShape n n)
    (hns : IsUnit MA.det ∨ IsUnit MB.det) (rA : A.RankIs MA)
    (nA : A.SamplesNullspaceRightOf MA) (nB : B.SamplesNullspaceRightOf MB)
    (sB : B.SolvesRightAs MB) :
    (init A B).toFIBB.SamplesNullspaceRightOf (MA * MB) := by
  intro k N g hNr hNc
  by_cases hfast : A.rowdim = A.coldim ∧ A.rank = A.coldim
  · obtain ⟨Z, hZ, hMZ⟩ := nB k N g hNr hNc
    refine ⟨Z, ?_, by rw [Matrix.mul_assoc, hMZ, Matrix.mul_zero]⟩
    have : (init A B).toFIBB.nullspaceRandomRight N g = B.nullspaceRandomRight N g :=
      if_pos hfast
    rw [this, hZ]
  · have hsing : ¬ IsUnit MA.det := by
      intro hu
      apply hfast
      refine ⟨by rw [hA.1, hA.2], ?_⟩
      rw [rA, hA.2]
      exact rank_eq_of_isUnit_det MA hu
    have hu : IsUnit MB.det := hns.resolve_left hsing
    obtain ⟨Z1, hZ1, hMZ1⟩ := nA k N g hNr hNc
    obtain ⟨Z, hZ, hMZ⟩ := sB k N Z1 hNr hNc (exists_mul_eq_of_isUnit_det MB hu Z1)
    refine ⟨Z, ?_, by rw [Matrix.mul_assoc, hMZ, hMZ1]⟩
    have : (init A B).toFIBB.nullspaceRandomRight N g =
        (B.solveRight N (A.nullspaceRandomRight N g).1, (A.nullspaceRandomRight N g).2) :=
      if_neg hfast
    rw [this]
    show B.solveRight N (A.nullspaceRandomRight N g).1 = _
    rw [hZ1, hZ]

/-- C18: for square factors of equal order `n`, at least one of them nonsingular, that
meet the documented contract, and every `X` consistent for the composite: with
`Y = solveRight(X)` and `Z = nullspaceRandomRight`, the sum `Y + Z` is again a solution,
`applyRight(Y + Z) = X`. -/
theorem solveRight_add_nullspaceRandomRight (A B : FIBB Φ K G) {n : Nat}
    (MA MB : Matrix (Fin n) (Fin n) K) (hA : A.HasShape n n) (hB : B.HasShape n n)
    (hns : IsUnit MA.det ∨ IsUnit MB.det)
    (aA : A.AppliesRightAs MA) (aB : B.AppliesRightAs MB) (rA : A.RankIs MA)
    (sA : A.SolvesRightAs MA) (sB : B.SolvesRightAs MB)
    (nA : A.SamplesNullspaceRightOf MA) (nB : B.SamplesNullspaceRightOf MB)
    (k : Nat) (Y N W : DenseMatrix K) (g : G) (X : Matrix (Fin n) (Fin k) K)
    (hYr : Y.rowdim = n) (hYc : Y.coldim = k) (hNr : N.rowdim = n) (hNc : N.coldim = k)
    (hWr : W.rowdim = n) (hWc : W.coldim = k)
    (hX : ∃ Y0 : Matrix (Fin n) (Fin k) K,
      (init A B).applyRight W (DenseMatrix.ofMatrix Y0) = DenseMatrix.ofMatrix X) :
    ∃ Ym Zm : Matrix (Fin n) (Fin k) K,
      (init A B).solveRight Y (DenseMatrix.ofMatrix X) = DenseMatrix.ofMatrix Ym ∧
        ((init A B).nullspaceRandomRight N g).1 = DenseMatrix.ofMatrix Zm ∧
        (init A B).applyRight W (DenseMatrix.ofMatrix (Ym + Zm)) = DenseMatrix.ofMatrix X := by
  have happ := toFIBB_appliesRightAs A B MA MB hB.1 aA aB
  obtain ⟨Y0, hY0⟩ := hX
  have hY0m : MA * MB * Y0 = X :=
    DenseMatrix.ofMatrix_injective ((happ k W Y0 hWr hWc).symm.trans hY0)
  obtain ⟨Ym, hYm, hMY⟩ :=
    toFIBB_solvesRightAs A B MA MB hA.2 sA sB hns k Y X hYr hYc ⟨Y0, hY0m⟩
  obtain ⟨Zm, hZm, hMZ⟩ :=
    toFIBB_samplesNullspaceRightOf A B MA MB hA hns rA nA nB sB k N g hNr hNc
  refine ⟨Ym, Zm, hYm, hZm, ?_⟩
  have := happ k W (Ym + Zm) hWr hWc
  rw [Matrix.mul_add, hMY, hMZ, add_zero] at this
  exact this

/-- C18, at the singular `projA` times the nonsingular `unitD`, the consistent right-hand
side `(2, 0)` and generator state 5. -/
theorem solveRight_add_nullspaceRandomRight_witness :
    (∃ Y0 : Matrix (Fin 2) (Fin 1) (ZMod 3),
        (init projA unitD).applyRight (DenseMatrix.alloc 2 1) (DenseMatrix.ofMatrix Y0) =
          DenseMatrix.ofMatrix !![2; 0]) ∧
      ∃ Ym Zm : Matrix (Fin 2) (Fin 1) (ZMod 3),
        (init projA unitD).solveRight (DenseMatrix.alloc 2 1)
            (DenseMatrix.ofMatrix !![2; 0]) = DenseMatrix.ofMatrix Ym ∧
          ((init projA unitD).nullspaceRandomRight (DenseMatrix.alloc 2 1) 5).1 =
            DenseMatrix.ofMatrix Zm ∧
          (init projA unitD).applyRight (DenseMatrix.alloc 2 1)
              (DenseMatrix.ofMatrix (Ym + Zm)) =
            DenseMatrix.ofMatrix (!![2; 0] : Matrix (Fin 2) (Fin 1) (ZMod 3)) := by
  have hX : ∃ Y0 : Matrix (Fin 2) (Fin 1) (ZMod 3),
      (init projA unitD).applyRight (DenseMatrix.alloc 2 1) (DenseMatrix.ofMatrix Y0) =
        DenseMatrix.ofMatrix !![2; 0] := by
    refine ⟨!![1; 0], ?_⟩
    simp only [init, applyRight, projA, unitD, tableFIBB_applyRight]
    exact congrArg DenseMatrix.ofMatrix (by decide)
  exact ⟨hX,
    solveRight_add_nullspaceRandomRight projA unitD _ _ projA_contract.shape
      unitD_contract.shape (Or.inr isUnit_det_diag_two_one)
      projA_contract.applyRight unitD_contract.applyRight projA_contract.rank
      projA_contract.solveRight unitD_contract.solveRight
      projA_contract.nullspaceRandomRight unitD_contract.nullspaceRandomRight
      1 (DenseMatrix.alloc 2 1) (DenseMatrix.alloc 2 1) (DenseMatrix.alloc 2 1) 5 !![2; 0]
      rfl rfl rfl rfl rfl rfl hX⟩

/-- The sampler of `projC` reaches every `2 × 1` matrix annihilated by `diag(0, 1)`. -/
theorem projC_nullspaceRandomRight_onto (V : Matrix (Fin 2) (Fin 1) (ZMod 3))
    (hV : Matrix.diagonal ![(0 : ZMod 3), 1] * V = 0) :
    ∃ g : Nat, (projC.nullspaceRandomRight (DenseMatrix.alloc 2 1) g).1 =
      DenseMatrix.ofMatrix V := by
  refine ⟨(V 0 0).val, ?_⟩
  show DenseMatrix.mulTableLeft _ (DenseMatrix.ofMatrix (sampleAt (V 0 0).val 2 1)) = _
  rw [DenseMatrix.mulTableLeft_ofMatrix]
  refine congrArg DenseMatrix.ofMatrix ?_
  revert V
  decide

/-- C19: for square factors of equal order `n` that meet the documented contract, with `A`
nonsingular and `B.nullspaceRandomRight` able to return every matrix annihilated by `MB`,
the possible outputs of the composite `nullspaceRandomRight(N)` (over the generator
states) and the possible outputs of `genericNullspaceRandomRight(N, P)` (over the random
samples of the shape of `N`) are the same set: the matrices `V` of the shape of `N` with
`MA * MB * V = 0`. -/
theorem nullspaceRandomRight_support (A B : FIBB Φ K G) {n k : Nat}
    (MA MB : Matrix (Fin n) (Fin n) K) (hA : A.HasShape n n) (hB : B.HasShape n n)
    (huA : IsUnit MA.det) (rA : A.RankIs MA)
    (aA : A.AppliesRightAs MA) (aB : B.AppliesRightAs MB)
    (sA : A.SolvesRightAs MA) (sB : B.SolvesRightAs MB)
    (nB : B.SamplesNullspaceRightOf MB)
    (N : DenseMatrix K) (hNr : N.rowdim = n) (hNc : N.coldim = k)
    (hsurj : ∀ V : Matrix (Fin n) (Fin k) K, MB * V = 0 →
      ∃ g : G, (B.nullspaceRandomRight N g).1 = DenseMatrix.ofMatrix V)
    (D : DenseMatrix K) :
    ((∃ g : G, ((init A B).nullspaceRandomRight N g).1 = D) ↔
        ∃ V : Matrix (Fin n) (Fin k) K, D = DenseMatrix.ofMatrix V ∧ MA * MB * V = 0) ∧
      ((∃ (random : DenseMatrix K → G → DenseMatrix K × G) (g : G)
          (X : Matrix (Fin n) (Fin k) K),
          (random (DenseMatrix.alloc N.rowdim N.coldim) g).1 = DenseMatrix.ofMatrix X ∧
            (genericNullspaceRandomRight random N (init A B).toFIBB g).1 = D) ↔
        ∃ V : Matrix (Fin n) (Fin k) K, D = DenseMatrix.ofMatrix V ∧ MA * MB * V = 0) := by
  have hfast : A.rowdim = A.coldim ∧ A.rank = A.coldim :=
    ⟨by rw [hA.1, hA.2], by rw [rA, hA.2]; exact rank_eq_of_isUnit_det MA huA⟩
  have hP : ∀ g, (init A B).nullspaceRandomRight N g = B.nullspaceRandomRight N g :=
    fun g => if_pos hfast
  have hshape : (init A B).toFIBB.HasShape n n := ⟨hA.1, hB.2⟩
  have happ := toFIBB_appliesRightAs A B MA MB hB.1 aA aB
  have hsol := toFIBB_solvesRightAs A B MA MB hA.2 sA sB (Or.inl huA)
  refine ⟨⟨?_, ?_⟩, ⟨?_, ?_⟩⟩
  · rintro ⟨g, rfl⟩
    obtain ⟨Z, hZ, hMZ⟩ := nB k N g hNr hNc
    exact ⟨Z, by rw [hP, hZ], by rw [Matrix.mul_assoc, hMZ, Matrix.mul_zero]⟩
  · rintro ⟨V, rfl, hV⟩
    have hBV : MB * V = 0 :=
      mul_left_cancel_of_isUnit_det MA huA (by rw [← Matrix.mul_assoc, hV, Matrix.mul_zero])
    obtain ⟨g, hg⟩ := hsurj V hBV
    exact ⟨g, by rw [hP, hg]⟩
  · rintro ⟨random, g, X, hX, rfl⟩
    obtain ⟨Z, -, hMZ, hout⟩ :=
      genericNullspaceRandomRight_eq random _ (MA * MB) hshape happ hsol N g hNr hNc X hX
    exact ⟨Z - X, hout, by rw [Matrix.mul_sub, hMZ, sub_self]⟩
  · rintro ⟨V, rfl, hV⟩
    obtain ⟨g, -⟩ := hsurj 0 (Matrix.mul_zero MB)
    obtain ⟨X, hX⟩ :=
      genericNullspaceRandomRight_reaches _ (MA * MB) hshape happ hsol N hNr hNc V hV
    exact ⟨fun _ g => (DenseMatrix.ofMatrix X, g), g, X, rfl, hX _ g rfl⟩

/-- C19, at the nonsingular `unitD` times the singular `projC`, whose sampler reaches its
whole nullspace, for the buffer `2 × 1` and the candidate output `(1, 0)`. -/
theorem nullspaceRandomRight_support_witness :
    (IsUnit (Matrix.diagonal ![(2 : ZMod 3), 1]).det ∧
        ∀ V : Matrix (Fin 2) (Fin 1) (ZMod 3), Matrix.diagonal ![(0 : ZMod 3), 1] * V = 0 →
          ∃ g : Nat, (projC.nullspaceRandomRight (DenseMatrix.alloc 2 1) g).1 =
            DenseMatrix.ofMatrix V) ∧
      ((∃ g : Nat, ((init unitD projC).nullspaceRandomRight (DenseMatrix.alloc 2 1) g).1 =
            DenseMatrix.ofMatrix (!![1; 0] : Matrix (Fin 2) (Fin 1) (ZMod 3))) ↔
          ∃ V : Matrix (Fin 2) (Fin 1) (ZMod 3),
            DenseMatrix.ofMatrix (!![1; 0] : Matrix (Fin 2) (Fin 1) (ZMod 3)) =
                DenseMatrix.ofMatrix V ∧
              Matrix.diagonal ![(2 : ZMod 3), 1] * Matrix.diagonal ![(0 : ZMod 3), 1] * V
                = 0) ∧
      ((∃ (random : DenseMatrix (ZMod 3) → Nat → DenseMatrix (ZMod 3) × Nat) (g : Nat)
            (X : Matrix (Fin 2) (Fin 1) (ZMod 3)),
            (random (DenseMatrix.alloc (DenseMatrix.alloc 2 1 : DenseMatrix (ZMod 3)).rowdim
                (DenseMatrix.alloc 2 1 : DenseMatrix (ZMod 3)).coldim) g).1 =
                DenseMatrix.ofMatrix X ∧
              (genericNullspaceRandomRight random (DenseMatrix.alloc 2 1)
                  (init unitD projC).toFIBB g).1 =
                DenseMatrix.ofMatrix (!![1; 0] : Matrix (Fin 2) (Fin 1) (ZMod 3))) ↔
          ∃ V : Matrix (Fin 2) (Fin 1) (ZMod 3),
            DenseMatrix.ofMatrix (!![1; 0] : Matrix (Fin 2) (Fin 1) (ZMod 3)) =
                DenseMatrix.ofMatrix V ∧
              Matrix.diagonal ![(2 : ZMod 3), 1] * Matrix.diagonal ![(0 : ZMod 3), 1] * V
                = 0) :=
  ⟨⟨isUnit_det_diag_two_one, projC_nullspaceRandomRight_onto⟩,
    nullspaceRandomRight_support unitD projC _ _ unitD_contract.shape projC_contract.shape
      isUnit_det_diag_two_one unitD_contract.rank
      unitD_contract.applyRight projC_contract.applyRight
      unitD_contract.solveRight projC_contract.solveRight
      projC_contract.nullspaceRandomRight (DenseMatrix.alloc 2 1) rfl rfl
      projC_nullspaceRandomRight_onto (DenseMatrix.ofMatrix !![1; 0])⟩

/-- C20: `init(A1, A2, A3)` binds `A1` on the left and the product of `A2` and `A3` on the
right, and for chain-compatible operands that apply as multiplication by their matrices it
applies as `M1 * M2 * M3 * X`; `init(A1, A2, A3, A4)` binds the product of `A1` and `A2`
on the left and the product of `A3` and `A4` on the right, and applies as
`M1 * M2 * M3 * M4 * X`. -/
theorem init3_init4_applyRight (A1 A2 A3 A4 : FIBB Φ K G) {m0 m1 m2 m3 m4 : Nat}
    (M1 : Matrix (Fin m0) (Fin m1) K) (M2 : Matrix (Fin m1) (Fin m2) K)
    (M3 : Matrix (Fin m2) (Fin m3) K) (M4 : Matrix (Fin m3) (Fin m4) K)
    (_h1 : A1.HasShape m0 m1) (h2 : A2.HasShape m1 m2) (h3 : A3.HasShape m2 m3)
    (h4 : A4.HasShape m3 m4)
    (a1 : A1.AppliesRightAs M1) (a2 : A2.AppliesRightAs M2) (a3 : A3.AppliesRightAs M3) :
    ((init3 A1 A2 A3).Ap = A1 ∧ (init3 A1 A2 A3).Bp = (init A2 A3).toFIBB ∧
        ∀ (k : Nat) (Y : DenseMatrix K) (X : Matrix (Fin m3) (Fin k) K),
          Y.rowdim = m0 → Y.coldim = k →
            (init3 A1 A2 A3).applyRight Y (DenseMatrix.ofMatrix X) =
              DenseMatrix.ofMatrix (M1 * M2 * M3 * X)) ∧
      ((init4 A1 A2 A3 A4).Ap = (init A1 A2).toFIBB ∧
        (init4 A1 A2 A3 A4).Bp = (init A3 A4).toFIBB ∧
        (A4.AppliesRightAs M4 →
          ∀ (k : Nat) (Y : DenseMatrix K) (X : Matrix (Fin m4) (Fin k) K),
            Y.rowdim = m0 → Y.coldim = k →
              (init4 A1 A2 A3 A4).applyRight Y (DenseMatrix.ofMatrix X) =
                DenseMatrix.ofMatrix (M1 * M2 * M3 * M4 * X))) := by
  refine ⟨⟨rfl, rfl, ?_⟩, ⟨rfl, rfl, ?_⟩⟩
  · intro k Y X hYr hYc
    have h23 := toFIBB_appliesRightAs A2 A3 M2 M3 h3.1 a2 a3
    have := toFIBB_appliesRightAs A1 (init A2 A3).toFIBB M1 (M2 * M3) h2.1 a1 h23 k Y X hYr hYc
    rw [← Matrix.mul_assoc] at this
    exact this
  · intro a4 k Y X hYr hYc
    have h12 := toFIBB_appliesRightAs A1 A2 M1 M2 h2.1 a1 a2
    have h34 := toFIBB_appliesRightAs A3 A4 M3 M4 h4.1 a3 a4
    have := toFIBB_appliesRightAs (init A1 A2).toFIBB (init A3 A4).toFIBB (M1 * M2) (M3 * M4)
      h3.1 h12 h34 k Y X hYr hYc
    rw [← Matrix.mul_assoc] at this
    exact this

/-- C20, at the operands `unitD`, `projA`, `unitD`, `projC` over GF(3) and `2 × 1`
inputs. -/
theorem init3_init4_applyRight_witness :
    (unitD.AppliesRightAs (Matrix.diagonal ![(2 : ZMod 3), 1]) ∧
        projA.AppliesRightAs (Matrix.diagonal ![(1 : ZMod 3), 0]) ∧
        projC.AppliesRightAs (Matrix.diagonal ![(0 : ZMod 3), 1])) ∧
      (init3 unitD projA unitD).applyRight (DenseMatrix.alloc 2 1)
          (DenseMatrix.ofMatrix !![1; 2]) =
        DenseMatrix.ofMatrix
          (Matrix.diagonal ![(2 : ZMod 3), 1] * Matrix.diagonal ![(1 : ZMod 3), 0] *
            Matrix.diagonal ![(2 : ZMod 3), 1] *
            (!![1; 2] : Matrix (Fin 2) (Fin 1) (ZMod 3))) ∧
      (init4 unitD projA unitD projC).applyRight (DenseMatrix.alloc 2 1)
          (DenseMatrix.ofMatrix !![1; 2]) =
        DenseMatrix.ofMatrix
          (Matrix.diagonal ![(2 : ZMod 3), 1] * Matrix.diagonal ![(1 : ZMod 3), 0] *
            Matrix.diagonal ![(2 : ZMod 3), 1] * Matrix.diagonal ![(0 : ZMod 3), 1] *
            (!![1; 2] : Matrix (Fin 2) (Fin 1) (ZMod 3))) :=
  ⟨⟨unitD_contract.applyRight, projA_contract.applyRight, projC_contract.applyRight⟩,
    (init3_init4_applyRight unitD projA unitD projC _ _ _
      (Matrix.diagonal ![(0 : ZMod 3), 1]) unitD_contract.shape
      projA_contract.shape unitD_contract.shape projC_contract.shape
      unitD_contract.applyRight projA_contract.applyRight unitD_contract.applyRight).1.2.2
      1 (DenseMatrix.alloc 2 1) !![1; 2] rfl rfl,
    (init3_init4_applyRight unitD projA unitD projC _ _ _
      (Matrix.diagonal ![(0 : ZMod 3), 1]) unitD_contract.shape
      projA_contract.shape unitD_contract.shape projC_contract.shape
      unitD_contract.applyRight projA_contract.applyRight unitD_contract.applyRight).2.2.2
      projC_contract.applyRight 1 (DenseMatrix.alloc 2 1) !![1; 2] rfl rfl⟩

end FIBBProduct

/-! ## The five-operand initialiser -/

namespace FIBBProduct

variable {Φ K G : Type} [Field K]

/-- C21 on the code: with the chain-compatible operands `unitD`, `projA`, `unitD`, `projA`,
`projC` (each applying as multiplication by its matrix) and the input `(1, 0)`, the
product built by `init` with five operands returns `(2, 0)`, which is
`M1 * (M1 * M2 * M3 * M4) * X`, whereas the ordered product of the five matrices maps the
input to zero; replacing the fifth operand changes nothing; and with the `2 × 1` fifth
operand `tallE` the reported `coldim` is 2, that of the fourth operand. -/
theorem init5_applyRight_drops_fifth :
    (unitD.AppliesRightAs (Matrix.diagonal ![(2 : ZMod 3), 1]) ∧
        projA.AppliesRightAs (Matrix.diagonal ![(1 : ZMod 3), 0]) ∧
        projC.AppliesRightAs (Matrix.diagonal ![(0 : ZMod 3), 1])) ∧
      (init5 unitD projA unitD projA projC).applyRight (DenseMatrix.alloc 2 1)
          (DenseMatrix.ofMatrix !![1; 0]) =
        DenseMatrix.ofMatrix (!![2; 0] : Matrix (Fin 2) (Fin 1) (ZMod 3)) ∧
      Matrix.diagonal ![(2 : ZMod 3), 1] * Matrix.diagonal ![(1 : ZMod 3), 0] *
          Matrix.diagonal ![(2 : ZMod 3), 1] * Matrix.diagonal ![(1 : ZMod 3), 0] *
          Matrix.diagonal ![(0 : ZMod 3), 1] * (!![1; 0] : Matrix (Fin 2) (Fin 1) (ZMod 3)) =
        0 ∧
      (init5 unitD projA unitD projA projC).applyRight (DenseMatrix.alloc 2 1)
          (DenseMatrix.ofMatrix !![1; 0]) ≠
        DenseMatrix.ofMatrix (0 : Matrix (Fin 2) (Fin 1) (ZMod 3)) ∧
      init5 unitD projA unitD projA projC = init5 unitD projA unitD projA unitD ∧
      (projA.coldim = tallE.rowdim ∧ tallE.coldim = 1 ∧
        (init5 unitD projA unitD projA tallE).coldim = 2) := by
  have hval : (init5 unitD projA unitD projA projC).applyRight (DenseMatrix.alloc 2 1)
      (DenseMatrix.ofMatrix !![1; 0]) =
        DenseMatrix.ofMatrix (!![2; 0] : Matrix (Fin 2) (Fin 1) (ZMod 3)) := by
    simp only [init5, init4, init, toFIBB, applyRight, unitD, projA, tableFIBB_applyRight]
    exact congrArg DenseMatrix.ofMatrix (by decide)
  refine ⟨⟨unitD_contract.applyRight, projA_contract.applyRight, projC_contract.applyRight⟩,
    hval, by decide, ?_, rfl, rfl, rfl, rfl⟩
  rw [hval]
  intro h
  exact absurd (DenseMatrix.ofMatrix_injective h) (by decide)

/-- C22: the product built by `init` with five operands has `Ap = A1`, not owned, and
`Bp` an owned product built by the four-operand `init` from `(A1, A2, A3, A4)`;
consequently its `rowdim` is `A1.rowdim`, its `coldim` is `A4.coldim`, and the whole
object, hence every operation on it, is the same whatever the fifth operand is. -/
theorem init5_pairing (A1 A2 A3 A4 A5 : FIBB Φ K G) :
    ((init5 A1 A2 A3 A4 A5).Ap = A1 ∧ (init5 A1 A2 A3 A4 A5).allocA = false) ∧
      ((init5 A1 A2 A3 A4 A5).Bp = (init4 A1 A2 A3 A4).toFIBB ∧
        (init5 A1 A2 A3 A4 A5).allocB = true) ∧
      (init5 A1 A2 A3 A4 A5).rowdim = A1.rowdim ∧
      (init5 A1 A2 A3 A4 A5).coldim = A4.coldim ∧
      (∀ A5' : FIBB Φ K G, init5 A1 A2 A3 A4 A5' = init5 A1 A2 A3 A4 A5) ∧
      ∀ A5' : FIBB Φ K G, (init5 A1 A2 A3 A4 A5').toFIBB = (init5 A1 A2 A3 A4 A5).toFIBB :=
  ⟨⟨rfl, rfl⟩, ⟨rfl, rfl⟩, rfl, rfl, fun _ => rfl, fun _ => rfl⟩

end FIBBProduct

/-! ## Dimensions, field and tag of a product -/

namespace FIBBProduct

variable {Φ K G : Type}

/-- C23: for a two-operand product of `A` and `B`: `rowdim` is `A.rowdim`, `coldim` is
`B.coldim`, `field` is the field of `A`, `bbTag` is `product`; `rowdim` and `field` do
not depend on `B`, `coldim` does not depend on `A`, and `bbTag` depends on neither. -/
theorem dims_field_tag_init (A B : FIBB Φ K G) :
    ((init A B).rowdim = A.rowdim ∧ (init A B).coldim = B.coldim ∧
        (init A B).field = A.field ∧ (init A B).bbTag = BBType.product) ∧
      (∀ B' : FIBB Φ K G, (init A B').rowdim = (init A B).rowdim ∧
        (init A B').field = (init A B).field) ∧
      (∀ A' : FIBB Φ K G, (init A' B).coldim = (init A B).coldim) ∧
      ∀ A' B' : FIBB Φ K G, (init A' B').bbTag = (init A B).bbTag :=
  ⟨⟨rfl, rfl, rfl, rfl⟩, fun _ => ⟨rfl, rfl⟩, fun _ => rfl, fun _ _ => rfl⟩

end FIBBProduct

/-! ## Ownership of the children -/

namespace Cell

/-- The ownership-level `init` builds the same products as the value-level one. -/
theorem denote_init {Φ K G : Type} [Zero K] [Mul K] (env : Nat → FIBB Φ K G)
    (this : Cell) (s : Store) (a1 a2 a3 a4 a5 : Nat) :
    (this.init2 a1 a2 s).1.denote env = some (FIBBProduct.init (env a1) (env a2)) ∧
      (this.init3 a1 a2 a3 s).1.denote env =
        some (FIBBProduct.init3 (env a1) (env a2) (env a3)) ∧
      (this.init4 a1 a2 a3 a4 s).1.denote env =
        some (FIBBProduct.init4 (env a1) (env a2) (env a3) (env a4)) ∧
      (this.init5 a1 a2 a3 a4 a5 s).1.denote env =
        some (FIBBProduct.init5 (env a1) (env a2) (env a3) (env a4) (env a5)) :=
  ⟨rfl, rfl, rfl, rfl⟩

theorem freedSince_append (s : Store) (n : Nat) (L : List Addr) :
    s.freedSince ⟨n, s.freed ++ L⟩ = L := by
  simp [Store.freedSince]

theorem disciplined_init2 (this : Cell) (s : Store) (a1 a2 : Nat) :
    Disciplined s (this.init2 a1 a2 s) := by
  refine ⟨by simp [init2, Obj.createdSince], by simp [init2, Obj.createdSince], ?_, ?_⟩
  · simp [init2, destroy, Store.freedSince, Store.createdSince]
  · simp [init2, destroy, Store.freedSince]

theorem disciplined_init3 (this : Cell) (s : Store) (a1 a2 a3 : Nat) :
    Disciplined s (this.init3 a1 a2 a3 s) := by
  have hf : (this.init3 a1 a2 a3 s).1.destroy (this.init3 a1 a2 a3 s).2 =
      ⟨s.next + 1, s.freed ++ [Addr.heap s.next]⟩ := by
    simp [init3, newProduct2, init2, destroy, Obj.delete]
  refine ⟨by simp [init3, Obj.createdSince],
    by simp [init3, newProduct2, init2, Obj.createdSince], ?_, ?_⟩
  · rw [hf, freedSince_append]
    simp [init3, newProduct2, init2, Store.createdSince, List.range']
  · rw [hf, freedSince_append]
    simp

theorem disciplined_init4 (this : Cell) (s : Store) (a1 a2 a3 a4 : Nat) :
    Disciplined s (this.init4 a1 a2 a3 a4 s) := by
  have hf : (this.init4 a1 a2 a3 a4 s).1.destroy (this.init4 a1 a2 a3 a4 s).2 =
      ⟨s.next + 1 + 1, s.freed ++ [Addr.heap s.next, Addr.heap (s.next + 1)]⟩ := by
    simp [init4, newProduct2, init2, destroy, Obj.delete]
  refine ⟨by simp [init4, newProduct2, init2, Obj.createdSince],
    by simp [init4, newProduct2, init2, Obj.createdSince], ?_, ?_⟩
  · rw [hf, freedSince_append]
    simp [init4, newProduct2, init2, Store.createdSince, List.range', Nat.add_assoc]
  · rw [hf, freedSince_append]
    simp

theorem disciplined_init5 (this : Cell) (s : Store) (a1 a2 a3 a4 a5 : Nat) :
    Disciplined s (this.init5 a1 a2 a3 a4 a5 s) := by
  have hf : (this.init5 a1 a2 a3 a4 a5 s).1.destroy (this.init5 a1 a2 a3 a4 a5 s).2 =
      ⟨s.next + 1 + 1 + 1,
        s.freed ++ ([Addr.heap (s.next + 1), Addr.heap (s.next + 1 + 1)] ++
          [Addr.heap s.next])⟩ := by
    simp [init5, newProduct4, init4, newProduct2, init2, destroy, Obj.delete]
  refine ⟨by simp [init5, Obj.createdSince],
    by simp [init5, newProduct4, init4, newProduct2, init2, Obj.createdSince], ?_, ?_⟩
  · rw [hf, freedSince_append]
    have hc : s.createdSince (this.init5 a1 a2 a3 a4 a5 s).2 =
        [Addr.heap s.next] ++ [Addr.heap (s.next + 1), Addr.heap (s.next + 1 + 1)] := by
      simp [init5, newProduct4, init4, newProduct2, init2, Store.createdSince, List.range',
        Nat.add_assoc]
    rw [hc]
    exact List.perm_append_comm
  · rw [hf, freedSince_append]
    simp

/-- C24: after `init` with `k` operands the flags `(allocA, allocB)` are `(false, false)`
for `k = 2`, `(false, true)` for `k = 3`, `(true, true)` for `k = 4` and `(false, true)`
for `k = 5`; in each case a flag is set exactly when that child was made by `new` inside
the `init`, and the destructor then releases exactly the objects made inside the `init`,
each once, and no caller-supplied operand. -/
theorem ownership_discipline {Φ K G : Type} [Zero K] [Mul K] (A1 A2 A3 A4 A5 : FIBB Φ K G)
    (this : Cell) (s : Store) (a1 a2 a3 a4 a5 : Nat) :
    (((FIBBProduct.init A1 A2).allocA, (FIBBProduct.init A1 A2).allocB) = (false, false) ∧
        ((FIBBProduct.init3 A1 A2 A3).allocA, (FIBBProduct.init3 A1 A2 A3).allocB) =
          (false, true) ∧
        ((FIBBProduct.init4 A1 A2 A3 A4).allocA, (FIBBProduct.init4 A1 A2 A3 A4).allocB) =
          (true, true) ∧
        ((FIBBProduct.init5 A1 A2 A3 A4 A5).allocA,
            (FIBBProduct.init5 A1 A2 A3 A4 A5).allocB) = (false, true)) ∧
      (((this.init2 a1 a2 s).1.allocA, (this.init2 a1 a2 s).1.allocB) = (false, false) ∧
        ((this.init3 a1 a2 a3 s).1.allocA, (this.init3 a1 a2 a3 s).1.allocB) =
          (false, true) ∧
        ((this.init4 a1 a2 a3 a4 s).1.allocA, (this.init4 a1 a2 a3 a4 s).1.allocB) =
          (true, true) ∧
        ((this.init5 a1 a2 a3 a4 a5 s).1.allocA, (this.init5 a1 a2 a3 a4 a5 s).1.allocB) =
          (false, true)) ∧
      (Disciplined s (this.init2 a1 a2 s) ∧ Disciplined s (this.init3 a1 a2 a3 s) ∧
        Disciplined s (this.init4 a1 a2 a3 a4 s) ∧
        Disciplined s (this.init5 a1 a2 a3 a4 a5 s)) :=
  ⟨⟨rfl, rfl, rfl, rfl⟩, ⟨rfl, rfl, rfl, rfl⟩,
    ⟨disciplined_init2 this s a1 a2, disciplined_init3 this s a1 a2 a3,
      disciplined_init4 this s a1 a2 a3 a4, disciplined_init5 this s a1 a2 a3 a4 a5⟩⟩

/-- C25 on the code: no `init` overload releases anything, whatever the object owned
before; so a blank object in an empty store that is initialised with the operands
`1, 2, 3` (which makes the sub-product at heap address 0, owned), initialised again with
the operands `4, 5` and then destroyed, never has that sub-product released. -/
theorem init_again_releases_nothing :
    (∀ (this : Cell) (s : Store) (a1 a2 a3 a4 a5 : Nat),
        (this.init2 a1 a2 s).2.freed = s.freed ∧ (this.init3 a1 a2 a3 s).2.freed = s.freed ∧
          (this.init4 a1 a2 a3 a4 s).2.freed = s.freed ∧
          (this.init5 a1 a2 a3 a4 a5 s).2.freed = s.freed) ∧
      ((blank.init3 1 2 3 ⟨0, []⟩).1.allocB = true ∧
        (blank.init3 1 2 3 ⟨0, []⟩).1.Bp.addr = some (Addr.heap 0) ∧
        Store.createdSince ⟨0, []⟩ (blank.init3 1 2 3 ⟨0, []⟩).2 = [Addr.heap 0]) ∧
      (((blank.init3 1 2 3 ⟨0, []⟩).1.init2 4 5 (blank.init3 1 2 3 ⟨0, []⟩).2).2.freed = [] ∧
        (((blank.init3 1 2 3 ⟨0, []⟩).1.init2 4 5 (blank.init3 1 2 3 ⟨0, []⟩).2).1.destroy
          ((blank.init3 1 2 3 ⟨0, []⟩).1.init2 4 5 (blank.init3 1 2 3 ⟨0, []⟩).2).2).freed
          = []) :=
  ⟨fun _ _ _ _ _ _ _ => ⟨rfl, rfl, rfl, rfl⟩, ⟨rfl, rfl, rfl⟩, ⟨rfl, rfl⟩⟩

end Cell

/-! ## Trees of products -/

theorem MatPath.prod_append {K : Type} [Field K] {m n r : Nat} (p : MatPath K m n)
    (q : MatPath K n r) : (p.append q).prod = p.prod * q.prod := by
  induction p with
  | nil _ => simp [MatPath.append, MatPath.prod]
  | cons M rest ih => simp [MatPath.append, MatPath.prod, ih, Matrix.mul_assoc]

theorem ProductTree.leaves_ne_nil {Φ K G : Type} {m p : Nat} (t : ProductTree Φ K G m p) :
    t.leaves ≠ [] := by
  induction t with
  | leaf A M => simp [ProductTree.leaves]
  | node l r ihl _ => simp [ProductTree.leaves, ihl]

namespace ProductTree

variable {Φ K G : Type} [Field K]

/-- A tree whose leaves apply as their matrices has the shape of its ends and applies as
the product of the leaf matrices. -/
theorem shape_and_apply {m p : Nat} (t : ProductTree Φ K G m p) (h : t.LeavesApply) :
    t.toFIBB.HasShape m p ∧ t.toFIBB.AppliesRightAs t.path.prod := by
  induction t with
  | leaf A M =>
    refine ⟨h.1, ?_⟩
    have : (MatPath.cons M (MatPath.nil _)).prod = M := by simp [MatPath.prod]
    show A.AppliesRightAs (MatPath.cons M (MatPath.nil _)).prod
    rw [this]
    exact h.2
  | node l r ihl ihr =>
    obtain ⟨hl, al⟩ := ihl h.1
    obtain ⟨hr, ar⟩ := ihr h.2
    refine ⟨⟨hl.1, hr.2⟩, ?_⟩
    show (FIBBProduct.init l.toFIBB r.toFIBB).toFIBB.AppliesRightAs (l.path.append r.path).prod
    rw [MatPath.prod_append]
    exact FIBBProduct.toFIBB_appliesRightAs l.toFIBB r.toFIBB _ _ hr.1 al ar

theorem head_rowdim {m p : Nat} (t : ProductTree Φ K G m p) :
    t.leaves.head?.map FIBB.rowdim = some t.toFIBB.rowdim := by
  induction t with
  | leaf A M => rfl
  | node l r ihl _ =>
    show (l.leaves ++ r.leaves).head?.map FIBB.rowdim = some l.toFIBB.rowdim
    rw [List.head?_append_of_ne_nil _ (leaves_ne_nil l), ihl]

theorem last_coldim {m p : Nat} (t : ProductTree Φ K G m p) :
    t.leaves.getLast?.map FIBB.coldim = some t.toFIBB.coldim := by
  induction t with
  | leaf A M => rfl
  | node l r _ ihr =>
    show (l.leaves ++ r.leaves).getLast?.map FIBB.coldim = some r.toFIBB.coldim
    rw [List.getLast?_append_of_ne_nil _ (leaves_ne_nil r), ihr]

theorem det_eq_prod {m p : Nat} (t : ProductTree Φ K G m p) :
    t.toFIBB.det = (t.leaves.map FIBB.det).prod := by
  induction t with
  | leaf A M => simp [toFIBB, leaves]
  | node l r ihl ihr =>
    show l.toFIBB.det * r.toFIBB.det = ((l.leaves ++ r.leaves).map FIBB.det).prod
    rw [List.map_append, List.prod_append, ihl, ihr]

theorem rank_is_min {m p : Nat} (t : ProductTree Φ K G m p) :
    (∃ A ∈ t.leaves, t.toFIBB.rank = A.rank) ∧ ∀ A ∈ t.leaves, t.toFIBB.rank ≤ A.rank := by
  induction t with
  | leaf A M => simp [toFIBB, leaves]
  | node l r ihl ihr =>
    obtain ⟨⟨Al, hAl, hl⟩, hlle⟩ := ihl
    obtain ⟨⟨Ar, hAr, hr⟩, hrle⟩ := ihr
    have hrank : (node l r).toFIBB.rank = min l.toFIBB.rank r.toFIBB.rank := rfl
    constructor
    · rcases min_choice l.toFIBB.rank r.toFIBB.rank with hmin | hmin
      · exact ⟨Al, List.mem_append_left _ hAl, by rw [hrank, hmin, hl]⟩
      · exact ⟨Ar, List.mem_append_right _ hAr, by rw [hrank, hmin, hr]⟩
    · intro A hA
      rw [hrank]
      rcases List.mem_append.mp hA with hA | hA
      · exact le_trans (min_le_left _ _) (hlle A hA)
      · exact le_trans (min_le_right _ _) (hrle A hA)

/-- C26: for every finite binary tree of product nodes whose leaves have chain-compatible
dimensions and apply as multiplication by their matrices `M1, …, Mk` (left to right),
the root applies as multiplication by `M1 * … * Mk`, so two trees over the same sequence
of matrices apply alike however they pair the leaves; `rowdim` is that of the first leaf,
`coldim` that of the last leaf, `det` is the product of the leaf determinants and `rank`
is the minimum of the leaf ranks. -/
theorem contracts_at_every_depth {m p : Nat} (t : ProductTree Φ K G m p) :
    (t.LeavesApply →
        t.toFIBB.AppliesRightAs t.path.prod ∧
          ∀ t' : ProductTree Φ K G m p, t'.LeavesApply → t'.path = t.path →
            ∀ (k : Nat) (Y : DenseMatrix K) (X : Matrix (Fin p) (Fin k) K),
              Y.rowdim = m → Y.coldim = k →
                t'.toFIBB.applyRight Y (DenseMatrix.ofMatrix X) =
                  t.toFIBB.applyRight Y (DenseMatrix.ofMatrix X)) ∧
      t.leaves.head?.map FIBB.rowdim = some t.toFIBB.rowdim ∧
      t.leaves.getLast?.map FIBB.coldim = some t.toFIBB.coldim ∧
      t.toFIBB.det = (t.leaves.map FIBB.det).prod ∧
      ((∃ A ∈ t.leaves, t.toFIBB.rank = A.rank) ∧ ∀ A ∈ t.leaves, t.toFIBB.rank ≤ A.rank) := by
  refine ⟨?_, head_rowdim t, last_coldim t, det_eq_prod t, rank_is_min t⟩
  intro h
  have ht := (shape_and_apply t h).2
  refine ⟨ht, ?_⟩
  intro t' h' hp k Y X hYr hYc
  have ht' := (shape_and_apply t' h').2
  rw [ht' k Y X hYr hYc, ht k Y X hYr hYc, hp]

/-- C26, at the tree `unitD · (projA · projC)` over GF(3). -/
theorem contracts_at_every_depth_witness :
    treeDAC.LeavesApply ∧ treeDAC.toFIBB.AppliesRightAs treeDAC.path.prod ∧
      treeDAC.path.prod =
        Matrix.diagonal ![(2 : ZMod 3), 1] *
          (Matrix.diagonal ![(1 : ZMod 3), 0] * Matrix.diagonal ![(0 : ZMod 3), 1]) :=
  ⟨⟨⟨unitD_contract.shape, unitD_contract.applyRight⟩,
      ⟨projA_contract.shape, projA_contract.applyRight⟩,
      ⟨projC_contract.shape, projC_contract.applyRight⟩⟩,
    ((contracts_at_every_depth treeDAC).1
      ⟨⟨unitD_contract.shape, unitD_contract.applyRight⟩,
        ⟨projA_contract.shape, projA_contract.applyRight⟩,
        ⟨projC_contract.shape, projC_contract.applyRight⟩⟩).1,
    by simp [treeDAC, path, MatPath.append, MatPath.prod]⟩

end ProductTree

/-! ## Shapes in the solving branch of `nullspaceRandomRight` -/

section Rect

variable {K : Type} [Field K]

theorem DenseMatrix.mulRectLeft_ofMatrix {m n k : Nat} (M : Matrix (Fin m) (Fin n) K)
    (X : Matrix (Fin n) (Fin k) K) :
    (DenseMatrix.ofMatrix X).mulRectLeft M = DenseMatrix.ofMatrix (M * X) := by
  show (⟨m, k, _⟩ : DenseMatrix K) = ⟨m, k, _⟩
  congr 1
  funext i j
  simp only [Matrix.mul_apply, DenseMatrix.ofMatrix_get]

theorem rectFIBB_appliesRightAs {m n : Nat} (M : Matrix (Fin m) (Fin n) K)
    (S : Matrix (Fin n) (Fin m) K) (r : Nat) (BR BL : DenseMatrix K) :
    (rectFIBB M S r BR BL).AppliesRightAs M :=
  fun _ _ X _ _ => DenseMatrix.mulRectLeft_ofMatrix M X

theorem rectFIBB_solvesRightAs {m n : Nat} (M : Matrix (Fin m) (Fin n) K)
    (S : Matrix (Fin n) (Fin m) K) (r : Nat) (BR BL : DenseMatrix K)
    (hS : M * S * M = M) : (rectFIBB M S r BR BL).SolvesRightAs M := by
  rintro k Y X - - ⟨Y0, rfl⟩
  refine ⟨S * (M * Y0), DenseMatrix.mulRectLeft_ofMatrix S _, ?_⟩
  rw [← Matrix.mul_assoc, ← Matrix.mul_assoc, hS]

theorem zeroOne_contract : zeroOne.Contract (0 : Matrix (Fin 1) (Fin 1) (ZMod 3)) :=
  tableFIBB_contract _ _ _ _ _ _ _ (by decide) Matrix.rank_zero.symm (by decide)
    (isRightNullspaceBasis_of_tables _ 0 _ 1 (by decide) (by decide) (by decide))
    (isLeftNullspaceBasis_of_tables _ 0 _ 1 (by decide) (by decide) (by decide))

end Rect

namespace FIBBProduct

variable {Φ K G : Type}

/-- C27, as stated, fails: `zeroOne` is the `1 × 1` zero matrix and `wideB` the `1 × 2`
matrix `[1 0]`, so `A.coldim = B.rowdim = 1`; the caller-shaped `N` has
`B.coldim = 2` rows, the fast-path test fails, and the copy `N1` handed to
`A.nullspaceRandomRight` has 2 rows, not `A.coldim = 1`. -/
theorem nullspaceRandomRight_shapes_counterexample :
    (zeroOne.Contract (0 : Matrix (Fin 1) (Fin 1) (ZMod 3)) ∧
        wideB.HasShape 1 2 ∧
        wideB.AppliesRightAs (!![1, 0] : Matrix (Fin 1) (Fin 2) (ZMod 3)) ∧
        wideB.SolvesRightAs (!![1, 0] : Matrix (Fin 1) (Fin 2) (ZMod 3))) ∧
      zeroOne.coldim = wideB.rowdim ∧
      (DenseMatrix.alloc 2 1 : DenseMatrix (ZMod 3)).rowdim = (init zeroOne wideB).coldim ∧
      ¬ (zeroOne.rowdim = zeroOne.coldim ∧ zeroOne.rank = zeroOne.coldim) ∧
      (init zeroOne wideB).nullspaceRandomRight (DenseMatrix.alloc 2 1) 5 =
        (((init zeroOne wideB).nullspaceRandomRightSteps (DenseMatrix.alloc 2 1) 5).result,
          ((init zeroOne wideB).nullspaceRandomRightSteps (DenseMatrix.alloc 2 1) 5).gen) ∧
      ((init zeroOne wideB).nullspaceRandomRightSteps (DenseMatrix.alloc 2 1) 5).N1.rowdim ≠
        zeroOne.coldim :=
  ⟨⟨zeroOne_contract, ⟨rfl, rfl⟩, rectFIBB_appliesRightAs _ _ _ _ _,
      rectFIBB_solvesRightAs _ _ _ _ _ (by decide)⟩,
    rfl, rfl, by decide, if_neg (by decide), by decide⟩

/-- C27, amended: for a two-operand product of `A` and `B` with `A.coldim = B.rowdim` and
`B` square, with `A.nullspaceRandomRight` returning a matrix of `A.coldim` rows when given
one, and for every caller-shaped `N` with `B.coldim` rows: when the fast-path test fails,
the composite returns the result of the solving branch, in which the copy `N1` of `N`
handed to `A.nullspaceRandomRight` has `A.coldim` rows and the right-hand side handed to
`B.solveRight` has `B.rowdim` rows. -/
theorem nullspaceRandomRight_shapes (A B : FIBB Φ K G) (hchain : A.coldim = B.rowdim)
    (hsq : B.rowdim = B.coldim)
    (hA : ∀ (M : DenseMatrix K) (g : G), M.rowdim = A.coldim →
      (A.nullspaceRandomRight M g).1.rowdim = A.coldim)
    (N : DenseMatrix K) (g : G) (hN : N.rowdim = (init A B).coldim)
    (hslow : ¬ (A.rowdim = A.coldim ∧ A.rank = A.coldim)) :
    (init A B).nullspaceRandomRight N g =
        (((init A B).nullspaceRandomRightSteps N g).result,
          ((init A B).nullspaceRandomRightSteps N g).gen) ∧
      ((init A B).nullspaceRandomRightSteps N g).N1 = N ∧
      ((init A B).nullspaceRandomRightSteps N g).N1.rowdim = A.coldim ∧
      ((init A B).nullspaceRandomRightSteps N g).rhs.rowdim = B.rowdim := by
  have hrows : N.rowdim = A.coldim := by
    rw [hN, hchain, hsq]
    rfl
  refine ⟨if_neg hslow, rfl, hrows, ?_⟩
  show (A.nullspaceRandomRight N g).1.rowdim = B.rowdim
  rw [hA N g hrows, hchain]

/-- C27 amended, at the singular `projA` times the square `unitD` and a `2 × 1` buffer. -/
theorem nullspaceRandomRight_shapes_witness :
    (projA.coldim = unitD.rowdim ∧ unitD.rowdim = unitD.coldim ∧
        ¬ (projA.rowdim = projA.coldim ∧ projA.rank = projA.coldim)) ∧
      ((init projA unitD).nullspaceRandomRightSteps (DenseMatrix.alloc 2 1) 5).N1.rowdim =
        projA.coldim ∧
      ((init projA unitD).nullspaceRandomRightSteps (DenseMatrix.alloc 2 1) 5).rhs.rowdim =
        unitD.rowdim :=
  ⟨⟨rfl, rfl, by decide⟩,
    (nullspaceRandomRight_shapes projA unitD rfl rfl (fun _ _ _ => rfl)
      (DenseMatrix.alloc 2 1) 5 rfl (by decide)).2.2⟩

end FIBBProduct

end LinBox
